import Mathlib

/-!
Verification development for the COSIMA clex-winter-school cookbook tutorial.

The repository is a notebook driving a query/load/transform/visualise
pipeline: a catalog of (experiment, variable) entries is queried with
`getvar`, which concatenates file chunks along the time axis, optionally
restricts to a time window and applies a transform, and returns a labeled
array; the labeled array is then manipulated with positional selection
(`isel`), coordinate selection (`sel`, exact or nearest), range selection,
axis reduction (`mean`) and annual resampling.  The pipeline functions
themselves live in external libraries, so every operation here is modelled
from the specification's contract and settled against that model.
-/

namespace Cookbook

/-- A labeled array: either a scalar cell, or an axis with a name, a
coordinate vector and one child sub-array per coordinate value.  Modelled
from the spec: "wraps a multidimensional numeric buffer with named, ordered
coordinate axes ... and attached attribute metadata". -/
inductive LArr where
  | scalar (v : ℚ)
  | arr (name : String) (coords : List ℚ) (children : List LArr)

mutual

/-- Boolean structural equality on labeled arrays. -/
def LArr.beq : LArr → LArr → Bool
  | .scalar v, .scalar w => v == w
  | .arr n c ch, .arr n2 c2 ch2 => n == n2 && c == c2 && beqList ch ch2
  | _, _ => false
termination_by structural a => a

/-- Boolean structural equality on lists of labeled arrays. -/
def beqList : List LArr → List LArr → Bool
  | [], [] => true
  | x :: xs, y :: ys => x.beq y && beqList xs ys
  | _, _ => false
termination_by structural l => l

end

instance : BEq LArr := ⟨LArr.beq⟩

mutual

/-- Apply a function to every numeric cell, leaving axes and coordinates
untouched (the model of elementwise arithmetic such as `darray - 273.15`). -/
def LArr.mapValues (f : ℚ → ℚ) : LArr → LArr
  | .scalar v => .scalar (f v)
  | .arr n c ch => .arr n c (mapValuesList f ch)
termination_by structural a => a

/-- mapValues on each element of a list of children. -/
def mapValuesList (f : ℚ → ℚ) : List LArr → List LArr
  | [] => []
  | x :: xs => x.mapValues f :: mapValuesList f xs
termination_by structural l => l

end

/-- The shape of a labeled array: all numeric cells zeroed, axes and
coordinates kept.  Two arrays with equal skeletons have identical axis
structure. -/
def LArr.skeleton (a : LArr) : LArr := a.mapValues (fun _ => 0)

mutual

/-- The flattened list of numeric cells of a labeled array. -/
def LArr.valuesOf : LArr → List ℚ
  | .scalar v => [v]
  | .arr _ _ ch => valuesOfList ch
termination_by structural a => a

/-- Flattened numeric cells of a list of children. -/
def valuesOfList : List LArr → List ℚ
  | [] => []
  | x :: xs => x.valuesOf ++ valuesOfList xs
termination_by structural l => l

end

/-- Boolean test that a coordinate vector is strictly increasing. -/
def chainLt : List ℚ → Bool
  | [] => true
  | [_] => true
  | a :: b :: rest => decide (a < b) && chainLt (b :: rest)

mutual

/-- The data-model invariant of a Labeled Array.  Modelled from the spec:
"every axis length matches the coordinate vector length for that axis;
coordinate values are monotonic in time and in spatial ordering as stored";
rectangularity (all children of an axis share one shape) is what makes the
notion of an axis length well defined for a nested representation. -/
def LArr.wfB : LArr → Bool
  | .scalar _ => true
  | .arr _ c ch =>
    (c.length == ch.length) && chainLt c && wfList ch &&
    (match ch with
     | [] => true
     | x :: xs => xs.all (fun y => y.skeleton == x.skeleton))
termination_by structural a => a

/-- The invariant on each element of a list of children. -/
def wfList : List LArr → Bool
  | [] => true
  | x :: xs => x.wfB && wfList xs
termination_by structural l => l

end

/-- The named axes of a labeled array with their coordinate vectors, from
the outermost axis inwards (following first children). -/
def LArr.axesSpec : LArr → List (String × List ℚ)
  | .scalar _ => []
  | .arr n c [] => [(n, c)]
  | .arr n c (x :: _) => (n, c) :: axesSpec x
termination_by structural a => a

/-- The coordinate vector of the named axis, if the axis exists. -/
def LArr.coordsOf (ax : String) (a : LArr) : Option (List ℚ) :=
  ((a.axesSpec.find? (fun p => p.1 == ax)).map (fun p => p.2))

/-- The length of the named axis, if the axis exists. -/
def LArr.axisLen (ax : String) (a : LArr) : Option Nat :=
  (a.coordsOf ax).map (fun c => c.length)

/-- The error kinds of the pipeline.  Modelled from the spec: ConnectionError,
NotFoundError, EmptyResultError, InvalidArgumentError, IndexError,
CoordinateNotFoundError. -/
inductive QueryError where
  | connectionError
  | notFound (name : String)
  | emptyResult
  | invalidArgument
  | indexError
  | coordinateNotFound
deriving DecidableEq

mutual

/-- Modelled from the spec: selection by index (isel) "selects by zero-based
positional index per named axis; fails with IndexError if index exceeds axis
length".  An axis name not present in the array fails with NotFoundError. -/
def LArr.isel (ax : String) (i : Nat) : LArr → Except QueryError LArr
  | .scalar _ => .error (.notFound ax)
  | .arr n c ch =>
    if n == ax then
      match ch[i]? with
      | some x => .ok x
      | none => .error .indexError
    else
      match iselList ax i ch with
      | .ok ch2 => .ok (.arr n c ch2)
      | .error e => .error e
termination_by structural a => a

/-- isel applied to every child, failing as a whole when any child fails. -/
def iselList (ax : String) (i : Nat) : List LArr → Except QueryError (List LArr)
  | [] => .ok []
  | x :: xs =>
    match x.isel ax i, iselList ax i xs with
    | .ok y, .ok ys => .ok (y :: ys)
    | .error e, _ => .error e
    | .ok _, .error e => .error e
termination_by structural l => l

end

/-- Index of the first exact occurrence of a coordinate value. -/
def idxOfQ (v : ℚ) : List ℚ → Option Nat
  | [] => none
  | c :: cs => if c == v then some 0 else (idxOfQ v cs).map (fun j => j + 1)

/-- Index of the coordinate value closest to the query value, the earliest
one on ties; none only for an empty coordinate vector. -/
def nearestIdx (v : ℚ) : List ℚ → Option Nat
  | [] => none
  | c :: cs =>
    match nearestIdx v cs with
    | none => some 0
    | some j => if |c - v| ≤ |cs.getD j 0 - v| then some 0 else some (j + 1)

/-- Modelled from the spec: selection by coordinate (sel) "selects by
coordinate value per named axis, with an optional nearest matching policy;
fails with CoordinateNotFoundError when no exact match exists and
nearest-matching is not requested".  The label is resolved to a position on
the axis and the selection is positional from there. -/
def LArr.sel (ax : String) (v : ℚ) (nearest : Bool) (a : LArr) :
    Except QueryError LArr :=
  match a.coordsOf ax with
  | none => .error (.notFound ax)
  | some c =>
    if nearest then
      match nearestIdx v c with
      | some j => a.isel ax j
      | none => .error .coordinateNotFound
    else
      match idxOfQ v c with
      | some j => a.isel ax j
      | none => .error .coordinateNotFound

/-- Membership of a coordinate value in an interval whose two endpoints are
each either inclusive or exclusive. -/
def memI (lo hi : ℚ) (incLo incHi : Bool) (t : ℚ) : Bool :=
  (if incLo then decide (lo ≤ t) else decide (lo < t)) &&
  (if incHi then decide (t ≤ hi) else decide (t < hi))

mutual

/-- Modelled from the spec: range selection "accepts a half-open or closed
coordinate interval per axis, returns the sub-array whose coordinate values
fall within it (empty result is valid, not an error)". -/
def LArr.rangeSel (ax : String) (lo hi : ℚ) (incLo incHi : Bool) :
    LArr → Except QueryError LArr
  | .scalar _ => .error (.notFound ax)
  | .arr n c ch =>
    if n == ax then
      let kept := (c.zip ch).filter (fun p => memI lo hi incLo incHi p.1)
      .ok (.arr n (kept.map (fun p => p.1)) (kept.map (fun p => p.2)))
    else
      match rangeSelList ax lo hi incLo incHi ch with
      | .ok ch2 => .ok (.arr n c ch2)
      | .error e => .error e
termination_by structural a => a

/-- rangeSel applied to every child. -/
def rangeSelList (ax : String) (lo hi : ℚ) (incLo incHi : Bool) :
    List LArr → Except QueryError (List LArr)
  | [] => .ok []
  | x :: xs =>
    match x.rangeSel ax lo hi incLo incHi, rangeSelList ax lo hi incLo incHi xs with
    | .ok y, .ok ys => .ok (y :: ys)
    | .error e, _ => .error e
    | .ok _, .error e => .error e
termination_by structural l => l

end

mutual

/-- Pointwise sum of two labeled arrays of the same shape (the mismatch
cases return the first argument and are never reached on same-shape data). -/
def LArr.addA : LArr → LArr → LArr
  | .scalar a, .scalar b => .scalar (a + b)
  | .arr n c ch, .arr _ _ ch2 => .arr n c (addList ch ch2)
  | .scalar a, .arr _ _ _ => .scalar a
  | .arr n c ch, .scalar _ => .arr n c ch
termination_by structural a => a

/-- Pointwise sums of two child lists. -/
def addList : List LArr → List LArr → List LArr
  | [], _ => []
  | _ :: _, [] => []
  | x :: xs, y :: ys => x.addA y :: addList xs ys
termination_by structural l => l

end

/-- Multiply every cell by a constant. -/
def LArr.scaleA (k : ℚ) (a : LArr) : LArr := a.mapValues (fun v => k * v)

/-- Pointwise average of a nonempty list of same-shape children; the empty
case is a placeholder that is never reached. -/
def avgChildren : List LArr → LArr
  | [] => .scalar 0
  | x :: xs => LArr.scaleA (1 / ((xs.length + 1 : Nat) : ℚ)) (xs.foldl LArr.addA x)

mutual

/-- Modelled from the spec: reduction (mean) "collapses one or more named
axes by the named statistic, dropping those axes from the result's
coordinate set". -/
def LArr.meanA (ax : String) : LArr → Except QueryError LArr
  | .scalar _ => .error (.notFound ax)
  | .arr n c ch =>
    if n == ax then
      match ch with
      | [] => .error .emptyResult
      | x :: xs => .ok (avgChildren (x :: xs))
    else
      match meanList ax ch with
      | .ok ch2 => .ok (.arr n c ch2)
      | .error e => .error e
termination_by structural a => a

/-- meanA applied to every child. -/
def meanList (ax : String) : List LArr → Except QueryError (List LArr)
  | [] => .ok []
  | x :: xs =>
    match x.meanA ax, meanList ax xs with
    | .ok y, .ok ys => .ok (y :: ys)
    | .error e, _ => .error e
    | .ok _, .error e => .error e
termination_by structural l => l

end

/-- Group consecutive time-stamped children by the integer year (floor) of
their time coordinate, keeping the order of appearance. -/
def groupYears : List (ℚ × LArr) → List (ℤ × List LArr)
  | [] => []
  | (t, x) :: rest =>
    match groupYears rest with
    | [] => [(⌊t⌋, [x])]
    | (y, g) :: more =>
      if ⌊t⌋ == y then (y, x :: g) :: more else (⌊t⌋, [x]) :: (y, g) :: more

/-- The distinct consecutive integer years of a time-coordinate vector. -/
def yearsOf : List ℚ → List ℤ
  | [] => []
  | t :: rest =>
    match yearsOf rest with
    | [] => [⌊t⌋]
    | y :: more => if ⌊t⌋ == y then y :: more else ⌊t⌋ :: y :: more

mutual

/-- Modelled from the spec: resampling "re-buckets the time axis into
coarser intervals (e.g., annual) and applies a reduction within each bucket,
producing a new, shorter time axis".  Annual buckets with the mean
reduction; each bucket is labelled by its year. -/
def LArr.resampleAnnualMean (ax : String) : LArr → Except QueryError LArr
  | .scalar _ => .error (.notFound ax)
  | .arr n c ch =>
    if n == ax then
      let groups := groupYears (c.zip ch)
      .ok (.arr n (groups.map (fun g => ((g.1 : ℤ) : ℚ)))
                  (groups.map (fun g => avgChildren g.2)))
    else
      match resampleList ax ch with
      | .ok ch2 => .ok (.arr n c ch2)
      | .error e => .error e
termination_by structural a => a

/-- resampleAnnualMean applied to every child. -/
def resampleList (ax : String) : List LArr → Except QueryError (List LArr)
  | [] => .ok []
  | x :: xs =>
    match x.resampleAnnualMean ax, resampleList ax xs with
    | .ok y, .ok ys => .ok (y :: ys)
    | .error e, _ => .error e
    | .ok _, .error e => .error e
termination_by structural l => l

end

/-- Sequence a fallible operation over a list, failing as a whole when any
element fails (the common shape of the child-list recursions above). -/
def exSeq (f : LArr → Except QueryError LArr) :
    List LArr → Except QueryError (List LArr)
  | [] => .ok []
  | x :: xs =>
    match f x, exSeq f xs with
    | .ok y, .ok ys => .ok (y :: ys)
    | .error e, _ => .error e
    | .ok _, .error e => .error e

/-- A catalog entry.  Modelled from the spec: "maps (experiment, variable) →
set of file references, plus coordinate descriptors (time range, depth
levels, grid axes)" and physical units; each file reference carries its
time-stamped data chunks, listed chronologically. -/
structure CatalogEntry where
  declaredTime : List ℚ
  declaredInner : List (String × List ℚ)
  units : String
  longName : String
  files : List (List (ℚ × LArr))

/-- The catalog: an association of (experiment, variable) pairs to entries. -/
def Catalog := List ((String × String) × CatalogEntry)

/-- Resolve an (experiment, variable) pair against the catalog. -/
def lookupVar (cat : Catalog) (expt vname : String) : Option CatalogEntry :=
  (cat.find? (fun p => p.1.1 == expt && p.1.2 == vname)).map (fun p => p.2)

/-- The shape declared by a list of coordinate descriptors: one nested axis
per descriptor, with zeroed cells. -/
def mkSkeleton : List (String × List ℚ) → LArr
  | [] => .scalar 0
  | (n, c) :: rest => .arr n c (List.replicate c.length (mkSkeleton rest))

/-- Well-formedness of a catalog entry: the declared time coordinates are
strictly increasing and are exactly the concatenation of the files' time
stamps in catalog (chronological) order, and every stored chunk satisfies
the data-model invariant with the declared inner shape. -/
def entryWF (e : CatalogEntry) : Bool :=
  chainLt e.declaredTime &&
  (e.files.flatten.map (fun s => s.1) == e.declaredTime) &&
  e.files.flatten.all
    (fun s => s.2.wfB && s.2.skeleton == mkSkeleton e.declaredInner)

/-- Whether a time stamp lies in the optional closed query window. -/
def inWindow (t0 t1 : Option ℚ) (t : ℚ) : Bool :=
  (match t0 with
   | some a => decide (a ≤ t)
   | none => true) &&
  (match t1 with
   | some b => decide (t ≤ b)
   | none => true)

/-- Whether an optional query window is well formed (start not after end). -/
def validWindow (t0 t1 : Option ℚ) : Bool :=
  match t0, t1 with
  | some a, some b => decide (a ≤ b)
  | _, _ => true

/-- Whether an optional chunking mapping only references axes present in
the target variable.  Modelled from the spec: chunking "must reference axes
present in the target variable". -/
def validChunking (chunking : Option (List (String × Nat))) (e : CatalogEntry) :
    Bool :=
  match chunking with
  | none => true
  | some m =>
    m.all (fun p => p.1 == "time" || (e.declaredInner.map (fun q => q.1)).contains p.1)

/-- The result of a load: a labeled array with attached unit metadata. -/
structure LabeledArray where
  data : LArr
  units : String
  longName : String

/-- Apply an optional post-load transform function. -/
def applyTransform (tr : Option (LArr → LArr)) (a : LArr) : LArr :=
  match tr with
  | none => a
  | some f => f a

/-- Modelled from the spec: the combined query function
`getvar(experiment, variable, session, start_time, end_time, chunking,
transform)`.  Malformed argument windows fail fast with
InvalidArgumentError; an unresolved (experiment, variable) pair fails with
NotFoundError naming the missing variable; a known variable with no data in
the requested window fails with EmptyResultError; otherwise the contributing
chunks are concatenated along the time axis in chronological order,
restricted to the closed window when one is given, the transform is applied
when one is given, and the result carries the coordinate and unit metadata. -/
def getvar (cat : Catalog) (expt vname : String) (startTime endTime : Option ℚ)
    (chunking : Option (List (String × Nat))) (transform : Option (LArr → LArr)) :
    Except QueryError LabeledArray :=
  if !validWindow startTime endTime then .error .invalidArgument
  else
    match lookupVar cat expt vname with
    | none => .error (.notFound vname)
    | some e =>
      if !validChunking chunking e then .error .invalidArgument
      else
        let samples := e.files.flatten
        let windowed := samples.filter (fun s => inWindow startTime endTime s.1)
        if windowed.isEmpty then .error .emptyResult
        else
          let raw : LArr := .arr "time" (windowed.map (fun s => s.1))
                                        (windowed.map (fun s => s.2))
          .ok ⟨applyTransform transform raw, e.units, e.longName⟩

/-- Modelled from the spec's words, for comparison: the "number_of_years"
of a time window, the fractional span in years between the first and last
time stamp. -/
def numberOfYears (t0 t1 : ℚ) : ℚ := t1 - t0

/-- A small catalog entry holding a one-dimensional (time only) variable in
two chronological files, used to exercise the model on concrete data. -/
def sampleEntry : CatalogEntry :=
  { declaredTime := [0, 1, 2]
    declaredInner := []
    units := "K"
    longName := "temp"
    files := [[(0, .scalar 10), (1, .scalar 20)], [(2, .scalar 30)]] }

/-- A small catalog entry holding a (time, x) variable in two chronological
files, used to exercise the model on concrete data. -/
def sampleEntry2 : CatalogEntry :=
  { declaredTime := [0, 1, 2]
    declaredInner := [("x", [5, 7])]
    units := "m"
    longName := "height"
    files := [[(0, .arr "x" [5, 7] [.scalar 1, .scalar 2]),
               (1, .arr "x" [5, 7] [.scalar 3, .scalar 4])],
              [(2, .arr "x" [5, 7] [.scalar 5, .scalar 6])]] }

/-- A concrete two-entry catalog for evaluating the model. -/
def sampleCat : Catalog := [(("e", "v"), sampleEntry), (("e", "h"), sampleEntry2)]

/-- A concrete well-formed (time, x) labeled array. -/
def ex2 : LArr :=
  .arr "time" [0, 1] [.arr "x" [5, 7] [.scalar 1, .scalar 2],
                      .arr "x" [5, 7] [.scalar 3, .scalar 4]]

/-- A concrete time series whose two samples lie 0.8 years apart but in two
different calendar years. -/
def ex3 : LArr := .arr "time" [3/5, 7/5] [.scalar 1, .scalar 2]

/-- Structural induction principle for labeled arrays that hands the
inductive hypothesis to every member of the child list. -/
theorem LArr.myInd (P : LArr → Prop) (hs : ∀ q, P (.scalar q))
    (ha : ∀ n c ch, (∀ x ∈ ch, P x) → P (.arr n c ch)) : ∀ a, P a
  | .scalar q => hs q
  | .arr n c ch => ha n c ch (fun x hx =>
      have : sizeOf x < sizeOf (LArr.arr n c ch) := by
        have h1 := List.sizeOf_lt_of_mem hx
        simp only [LArr.arr.sizeOf_spec]
        omega
      LArr.myInd P hs ha x)
termination_by a => sizeOf a

/-- beqList decides equality of lists, given that beq decides equality of
the elements. -/
theorem beqList_iff (l1 : List LArr)
    (h : ∀ x ∈ l1, ∀ b, (x.beq b = true) ↔ x = b) :
    ∀ l2, (beqList l1 l2 = true) ↔ l1 = l2 := by
  induction l1 with
  | nil => intro l2; cases l2 <;> simp [beqList]
  | cons x xs ih =>
    intro l2
    cases l2 with
    | nil => simp [beqList]
    | cons y ys =>
      have hx := h x (by simp)
      have hxs := ih (fun z hz b => h z (by simp [hz]) b) ys
      simp [beqList, hx, hxs]

/-- Boolean equality on labeled arrays decides propositional equality. -/
theorem LArr.beq_iff (a : LArr) : ∀ b, (a.beq b = true) ↔ a = b := by
  induction a using LArr.myInd with
  | hs q =>
    intro b; cases b with
    | scalar w => simp [LArr.beq]
    | arr n2 c2 ch2 => simp [LArr.beq]
  | ha n c ch ih =>
    intro b
    cases b with
    | scalar w => simp [LArr.beq]
    | arr n2 c2 ch2 =>
      have hl := beqList_iff ch ih ch2
      simp [LArr.beq, hl, and_assoc]

/-- mapValues on a child list is an ordinary List.map. -/
theorem mapValuesList_eq (f : ℚ → ℚ) :
    ∀ l : List LArr, mapValuesList f l = l.map (LArr.mapValues f) := by
  intro l
  induction l with
  | nil => rfl
  | cons x xs ih => simp [mapValuesList, ih]

/-- wfList is an ordinary List.all of the invariant. -/
theorem wfList_eq : ∀ l : List LArr, wfList l = l.all LArr.wfB := by
  intro l
  induction l with
  | nil => rfl
  | cons x xs ih => simp [wfList, ih, List.all_cons]

/-- valuesOfList is an ordinary flat map of valuesOf. -/
theorem valuesOfList_eq :
    ∀ l : List LArr, valuesOfList l = (l.map LArr.valuesOf).flatten := by
  intro l
  induction l with
  | nil => rfl
  | cons x xs ih => simp [valuesOfList, ih]

/-- mapValues leaves a scalar cell as a transformed scalar. -/
theorem mapValues_scalar (f : ℚ → ℚ) (v : ℚ) :
    (LArr.scalar v).mapValues f = .scalar (f v) := rfl

/-- mapValues rewrites an axis node by mapping every child. -/
theorem mapValues_arr (f : ℚ → ℚ) (n : String) (c : List ℚ) (ch : List LArr) :
    (LArr.arr n c ch).mapValues f = .arr n c (ch.map (LArr.mapValues f)) := by
  simp [LArr.mapValues, mapValuesList_eq]

/-- The named axes are untouched by elementwise value maps. -/
theorem axesSpec_mapValues (f : ℚ → ℚ) (a : LArr) :
    (a.mapValues f).axesSpec = a.axesSpec := by
  induction a using LArr.myInd with
  | hs q => rfl
  | ha n c ch ih =>
    cases ch with
    | nil => rfl
    | cons x xs =>
      have hx := ih x (by simp)
      simp [mapValues_arr, LArr.axesSpec, hx]

/-- The skeleton of a scalar. -/
theorem skeleton_scalar (v : ℚ) : (LArr.scalar v).skeleton = .scalar 0 := rfl

/-- The skeleton of an axis node maps skeleton over the children. -/
theorem skeleton_arr (n : String) (c : List ℚ) (ch : List LArr) :
    (LArr.arr n c ch).skeleton = .arr n c (ch.map LArr.skeleton) := by
  simp [LArr.skeleton, mapValues_arr]

/-- Elementwise value maps do not change the skeleton. -/
theorem skeleton_mapValues (f : ℚ → ℚ) (a : LArr) :
    (a.mapValues f).skeleton = a.skeleton := by
  induction a using LArr.myInd with
  | hs q => rfl
  | ha n c ch ih =>
    simp only [mapValues_arr, skeleton_arr, List.map_map]
    congr 1
    exact List.map_congr_left (fun x hx => ih x hx)

/-- Arrays with equal skeletons have equal axes. -/
theorem axesSpec_eq_of_skeleton_eq {a b : LArr} (h : a.skeleton = b.skeleton) :
    a.axesSpec = b.axesSpec := by
  have ha := axesSpec_mapValues (fun _ => 0) a
  have hb := axesSpec_mapValues (fun _ => 0) b
  rw [← ha, ← hb]
  exact congrArg LArr.axesSpec h

/-- The strict-chain test matches the Chain' relation. -/
theorem chainLt_iff : ∀ l : List ℚ, chainLt l = true ↔ l.Chain' (· < ·) := by
  intro l
  induction l with
  | nil => simp [chainLt]
  | cons a rest ih =>
    cases rest with
    | nil => simp [chainLt]
    | cons b xs =>
      simp [chainLt, List.chain'_cons, ih]

/-- The strict-chain test implies pairwise strict inequality. -/
theorem chainLt_pairwise {l : List ℚ} (h : chainLt l = true) :
    l.Pairwise (· < ·) :=
  List.chain'_iff_pairwise.1 ((chainLt_iff l).1 h)

/-- The invariant at an axis node, unfolded to list operations. -/
theorem wfB_arr (n : String) (c : List ℚ) (ch : List LArr) :
    (LArr.arr n c ch).wfB =
      ((c.length == ch.length) && chainLt c && ch.all LArr.wfB &&
       (match ch with
        | [] => true
        | x :: xs => xs.all (fun y => y.skeleton == x.skeleton))) := by
  simp [LArr.wfB, wfList_eq]

/-- Unpacked consequences of the invariant at an axis node. -/
theorem wfB_arr_parts {n : String} {c : List ℚ} {ch : List LArr}
    (h : (LArr.arr n c ch).wfB = true) :
    c.length = ch.length ∧ chainLt c = true ∧ (∀ x ∈ ch, x.wfB = true) ∧
    (∀ x ∈ ch, ∀ y ∈ ch, x.skeleton = y.skeleton) := by
  rw [wfB_arr] at h
  simp only [Bool.and_eq_true, beq_iff_eq] at h
  obtain ⟨⟨⟨hlen, hchain⟩, hall⟩, huni⟩ := h
  refine ⟨hlen, hchain, ?_, ?_⟩
  · intro x hx
    exact (List.all_eq_true.1 hall) x hx
  · cases ch with
    | nil => intro x hx; cases hx
    | cons z zs =>
      simp only [List.all_eq_true] at huni
      replace huni := fun w hw => (LArr.beq_iff _ _).1 (huni w hw)
      intro x hx y hy
      have hsk : ∀ w ∈ z :: zs, w.skeleton = z.skeleton := by
        intro w hw
        rcases List.mem_cons.1 hw with h1 | h2
        · rw [h1]
        · exact huni w h2
      rw [hsk x hx, hsk y hy]

/-- Zipping the two projections of a pair list recovers the list. -/
theorem zip_map_fst_snd {α β : Type} :
    ∀ l : List (α × β), (l.map (fun s => s.1)).zip (l.map (fun s => s.2)) = l := by
  intro l
  induction l with
  | nil => rfl
  | cons x xs ih => simp [ih]

/-- Filtering on the first component commutes with projecting it. -/
theorem map_fst_filter {α β : Type} (p : α → Bool) :
    ∀ l : List (α × β),
      ((l.filter (fun s => p s.1)).map (fun s => s.1)) =
        (l.map (fun s => s.1)).filter p := by
  intro l
  induction l with
  | nil => rfl
  | cons x xs ih =>
    by_cases h : p x.1 = true
    · simp [List.filter_cons, h, ih]
    · simp only [Bool.not_eq_true] at h
      simp [List.filter_cons, h, ih]

/-- An axis node exposes its own coordinates under its own name. -/
theorem coordsOf_arr_self (n : String) (c : List ℚ) (ch : List LArr) :
    (LArr.arr n c ch).coordsOf n = some c := by
  cases ch <;> simp [LArr.coordsOf, LArr.axesSpec, List.find?]

/-- Looking up a different axis name descends into the first child. -/
theorem coordsOf_arr_ne {n ax : String} (hne : n ≠ ax) (c : List ℚ) (ch : List LArr) :
    (LArr.arr n c ch).coordsOf ax =
      (match ch with
       | [] => none
       | x :: _ => x.coordsOf ax) := by
  have hb : (n == ax) = false := by simp [hne]
  cases ch with
  | nil => simp [LArr.coordsOf, LArr.axesSpec, List.find?, hb]
  | cons x xs => simp [LArr.coordsOf, LArr.axesSpec, List.find?, hb]

/-- A sublist of a strictly increasing list is strictly increasing. -/
theorem chainLt_sublist {l1 l2 : List ℚ} (hs : l1.Sublist l2)
    (h : chainLt l2 = true) : chainLt l1 = true := by
  rw [chainLt_iff, List.chain'_iff_pairwise]
  exact (chainLt_pairwise h).sublist hs

/-- A filter of a strictly increasing list is strictly increasing. -/
theorem chainLt_filter (p : ℚ → Bool) {l : List ℚ} (h : chainLt l = true) :
    chainLt (l.filter p) = true :=
  chainLt_sublist (List.filter_sublist l) h

/-- Success characterization of getvar: a load succeeds exactly when the
window is well formed, the (experiment, variable) pair resolves, the
chunking references known axes and the windowed sample list is nonempty, and
the result is then the chronological concatenation of the windowed samples
with the transform applied and the entry's metadata attached. -/
theorem getvar_ok_iff {cat : Catalog} {expt vname : String}
    {t0 t1 : Option ℚ} {ck : Option (List (String × Nat))}
    {tr : Option (LArr → LArr)} {r : LabeledArray} :
    getvar cat expt vname t0 t1 ck tr = .ok r ↔
    (validWindow t0 t1 = true ∧ ∃ e, lookupVar cat expt vname = some e ∧
      validChunking ck e = true ∧
      (e.files.flatten.filter (fun s => inWindow t0 t1 s.1)) ≠ [] ∧
      r = ⟨applyTransform tr (.arr "time"
            ((e.files.flatten.filter (fun s => inWindow t0 t1 s.1)).map (fun s => s.1))
            ((e.files.flatten.filter (fun s => inWindow t0 t1 s.1)).map (fun s => s.2))),
           e.units, e.longName⟩) := by
  unfold getvar
  cases hv : validWindow t0 t1 with
  | false => simp [hv]
  | true =>
    simp only [Bool.not_true, Bool.false_eq_true, if_false, hv, true_and]
    cases hl : lookupVar cat expt vname with
    | none => simp
    | some e =>
      simp only [Option.some.injEq]
      cases hc : validChunking ck e with
      | false =>
        simp only [Bool.not_false, if_true]
        constructor
        · intro h; cases h
        · rintro ⟨e2, rfl, hh⟩
          rw [hc] at hh
          exact absurd hh.1 (by simp)
      | true =>
        simp only [Bool.not_true, Bool.false_eq_true, if_false]
        cases he : (e.files.flatten.filter (fun s => inWindow t0 t1 s.1)).isEmpty with
        | true =>
          rw [List.isEmpty_iff] at he
          constructor
          · intro h; cases h
          · rintro ⟨e2, rfl, -, hne, -⟩
            exact absurd he hne
        | false =>
          rw [List.isEmpty_eq_false_iff_exists_mem] at he
          constructor
          · intro h
            refine ⟨e, rfl, hc, ?_, ?_⟩
            · intro hnil
              obtain ⟨x, hx⟩ := he
              rw [hnil] at hx
              cases hx
            · cases h
              rfl
          · rintro ⟨e2, he2, -, -, rfl⟩
            cases he2
            rfl

/-- Unpacked consequences of entry well-formedness. -/
theorem entryWF_parts {e : CatalogEntry} (h : entryWF e = true) :
    chainLt e.declaredTime = true ∧
    e.files.flatten.map (fun s => s.1) = e.declaredTime ∧
    ∀ s ∈ e.files.flatten,
      s.2.wfB = true ∧ s.2.skeleton = mkSkeleton e.declaredInner := by
  simp only [entryWF, Bool.and_eq_true, List.all_eq_true, beq_iff_eq] at h
  obtain ⟨⟨hchain, hmap⟩, hall⟩ := h
  refine ⟨hchain, hmap, fun s hs => ?_⟩
  have h12 := hall s hs
  exact ⟨h12.1, (LArr.beq_iff _ _).1 h12.2⟩

/-- C1: a windowed getvar call returns exactly the restriction of the
unwindowed result's time axis to the closed window [t0, t1], and the
unwindowed time coordinates are a superset (supersequence) of the windowed
ones. -/
theorem getvar_window_refines
    {cat : Catalog} {expt vname : String} {t0 t1 : ℚ} {aw au : LabeledArray}
    (hw : getvar cat expt vname (some t0) (some t1) none none = .ok aw)
    (hu : getvar cat expt vname none none none none = .ok au) :
    au.data.rangeSel "time" t0 t1 true true = .ok aw.data ∧
    ∃ cw cu, aw.data.coordsOf "time" = some cw ∧
      au.data.coordsOf "time" = some cu ∧ cw.Sublist cu := by
  rw [getvar_ok_iff] at hw hu
  obtain ⟨-, e, hl, -, -, haw⟩ := hw
  obtain ⟨-, e2, hl2, -, -, hau⟩ := hu
  rw [hl] at hl2
  cases hl2
  have hfil : e.files.flatten.filter (fun s => inWindow none none s.1) =
      e.files.flatten := List.filter_eq_self.mpr (fun a _ => rfl)
  rw [hfil] at hau
  subst haw
  subst hau
  simp only [applyTransform]
  constructor
  · simp only [LArr.rangeSel, beq_self_eq_true, if_true, zip_map_fst_snd]
    have hpred : (fun p : ℚ × LArr => memI t0 t1 true true p.1) =
        (fun s : ℚ × LArr => inWindow (some t0) (some t1) s.1) := rfl
    rw [hpred]
  · refine ⟨_, _, coordsOf_arr_self _ _ _, coordsOf_arr_self _ _ _, ?_⟩
    rw [map_fst_filter]
    exact List.filter_sublist _

/-- C1 witness: the window/no-window consistency at a concrete catalog. -/
theorem getvar_window_refines_w :
    (LArr.arr "time" [(0 : ℚ), 1, 2]
        [.scalar 10, .scalar 20, .scalar 30]).rangeSel "time" 1 2 true true =
      .ok (.arr "time" [1, 2] [.scalar 20, .scalar 30]) ∧
    ∃ cw cu, (LArr.arr "time" [(1 : ℚ), 2]
        [.scalar 20, .scalar 30]).coordsOf "time" = some cw ∧
      (LArr.arr "time" [(0 : ℚ), 1, 2]
        [.scalar 10, .scalar 20, .scalar 30]).coordsOf "time" = some cu ∧
      cw.Sublist cu :=
  @getvar_window_refines sampleCat "e" "v" 1 2
    ⟨.arr "time" [1, 2] [.scalar 20, .scalar 30], "K", "temp"⟩
    ⟨.arr "time" [0, 1, 2] [.scalar 10, .scalar 20, .scalar 30], "K", "temp"⟩
    rfl rfl

/-- C4: an unresolved variable name fails with NotFoundError (when the rest
of the call is valid), and a known variable queried with start_time after
end_time fails with InvalidArgumentError; in both cases the whole call
returns an error, never a partial result. -/
theorem getvar_failure_modes :
    (∀ (cat : Catalog) (expt vname : String) (t0 t1 : Option ℚ)
       (ck : Option (List (String × Nat))) (tr : Option (LArr → LArr)),
       validWindow t0 t1 = true → lookupVar cat expt vname = none →
       getvar cat expt vname t0 t1 ck tr = .error (.notFound vname)) ∧
    (∀ (cat : Catalog) (expt vname : String) (a b : ℚ)
       (ck : Option (List (String × Nat))) (tr : Option (LArr → LArr))
       (e : CatalogEntry),
       lookupVar cat expt vname = some e → b < a →
       getvar cat expt vname (some a) (some b) ck tr = .error .invalidArgument) := by
  constructor
  · intro cat expt vname t0 t1 ck tr hv hl
    unfold getvar
    rw [hv, hl]
    rfl
  · intro cat expt vname a b ck tr e hl hba
    unfold getvar
    have hv : validWindow (some a) (some b) = false := by
      simp only [validWindow, decide_eq_false_iff_not]
      exact not_le.mpr hba
    rw [hv]
    rfl

/-- C4 witness: both failure modes at a concrete catalog. -/
theorem getvar_failure_modes_w :
    getvar sampleCat "e" "w" none none none none = .error (.notFound "w") ∧
    getvar sampleCat "e" "v" (some 2) (some 1) none none = .error .invalidArgument :=
  ⟨getvar_failure_modes.1 sampleCat "e" "w" none none none none rfl rfl,
   getvar_failure_modes.2 sampleCat "e" "v" 2 1 none none sampleEntry rfl
     (by norm_num)⟩

/-- C7: loading with the identity function as transform gives exactly the
same result as loading with no transform, for every call. -/
theorem getvar_transform_id (cat : Catalog) (expt vname : String)
    (t0 t1 : Option ℚ) (ck : Option (List (String × Nat))) :
    getvar cat expt vname t0 t1 ck (some (fun a => a)) =
      getvar cat expt vname t0 t1 ck none := by
  unfold getvar
  rfl

/-- C5: a successful getvar load (no transform) carries the chronological
concatenation of the contributing chunks' time stamps restricted to the
closed query window as its time axis, that time axis is chronologically
ordered, the entry's unit metadata is attached, and a transform, when given,
is applied to exactly the untransformed result. -/
theorem getvar_success_spec
    {cat : Catalog} {expt vname : String} {t0 t1 : Option ℚ}
    {e : CatalogEntry} {r : LabeledArray}
    (hl : lookupVar cat expt vname = some e) (hwf : entryWF e = true)
    (hok : getvar cat expt vname t0 t1 none none = .ok r) :
    r.data.coordsOf "time" = some (e.declaredTime.filter (inWindow t0 t1)) ∧
    chainLt (e.declaredTime.filter (inWindow t0 t1)) = true ∧
    r.units = e.units ∧ r.longName = e.longName ∧
    (∀ f : LArr → LArr, getvar cat expt vname t0 t1 none (some f) =
       .ok ⟨f r.data, e.units, e.longName⟩) := by
  obtain ⟨hchain, hmap, -⟩ := entryWF_parts hwf
  rw [getvar_ok_iff] at hok
  obtain ⟨hv, e2, hl2, hck, hne, hr⟩ := hok
  rw [hl] at hl2
  cases hl2
  have htimes :
      (e.files.flatten.filter (fun s => inWindow t0 t1 s.1)).map (fun s => s.1) =
        e.declaredTime.filter (inWindow t0 t1) := by
    rw [map_fst_filter, hmap]
  subst hr
  refine ⟨?_, ?_, rfl, rfl, ?_⟩
  · simp only [applyTransform]
    rw [coordsOf_arr_self, htimes]
  · exact chainLt_filter _ hchain
  · intro f
    rw [getvar_ok_iff]
    exact ⟨hv, e, hl, hck, hne, rfl⟩

/-- C5 witness: a windowed two-axis load at a concrete catalog. -/
theorem getvar_success_spec_w :
    (LabeledArray.mk
        (.arr "time" [1, 2]
          [.arr "x" [5, 7] [.scalar 3, .scalar 4],
           .arr "x" [5, 7] [.scalar 5, .scalar 6]]) "m" "height").data.coordsOf
        "time" =
      some (sampleEntry2.declaredTime.filter (inWindow (some 1) (some 2))) ∧
    chainLt (sampleEntry2.declaredTime.filter (inWindow (some 1) (some 2))) = true ∧
    "m" = sampleEntry2.units ∧ "height" = sampleEntry2.longName ∧
    (∀ f : LArr → LArr, getvar sampleCat "e" "h" (some 1) (some 2) none (some f) =
       .ok ⟨f (.arr "time" [1, 2]
          [.arr "x" [5, 7] [.scalar 3, .scalar 4],
           .arr "x" [5, 7] [.scalar 5, .scalar 6]]),
         sampleEntry2.units, sampleEntry2.longName⟩) :=
  @getvar_success_spec sampleCat "e" "h" (some 1) (some 2) sampleEntry2
    ⟨.arr "time" [1, 2]
      [.arr "x" [5, 7] [.scalar 3, .scalar 4],
       .arr "x" [5, 7] [.scalar 5, .scalar 6]], "m", "height"⟩
    rfl rfl rfl

/-- Under the invariant, any axis found in a labeled array has strictly
increasing coordinates. -/
theorem coordsOf_chainLt {ax : String} :
    ∀ {a : LArr} {cs : List ℚ}, a.wfB = true → a.coordsOf ax = some cs →
      chainLt cs = true := by
  have main : ∀ a : LArr, ∀ cs : List ℚ, a.wfB = true → a.coordsOf ax = some cs →
      chainLt cs = true := by
    intro a
    induction a using LArr.myInd with
    | hs q => intro cs _ hc; cases hc
    | ha n c ch ih =>
      intro cs hw hc
      obtain ⟨-, hchain, hchld, -⟩ := wfB_arr_parts hw
      by_cases hax : n = ax
      · subst hax
        rw [coordsOf_arr_self] at hc
        cases hc
        exact hchain
      · rw [coordsOf_arr_ne hax] at hc
        cases ch with
        | nil => cases hc
        | cons x xs =>
          exact ih x (by simp) cs (hchld x (by simp)) hc
  intro a cs
  exact main a cs

/-- The first-occurrence index of the i-th element of a duplicate-free list
is i itself. -/
theorem idxOfQ_get :
    ∀ (cs : List ℚ) (i : Nat) (h : i < cs.length), cs.Pairwise (· ≠ ·) →
      idxOfQ (cs.get ⟨i, h⟩) cs = some i := by
  intro cs
  induction cs with
  | nil => intro i h; cases h
  | cons c rest ih =>
    intro i h hp
    obtain ⟨hne, hp2⟩ := List.pairwise_cons.1 hp
    cases i with
    | zero => simp [idxOfQ]
    | succ j =>
      have hj : j < rest.length := Nat.lt_of_succ_lt_succ h
      have hv : (c :: rest).get ⟨j + 1, h⟩ = rest.get ⟨j, hj⟩ := rfl
      have hcv : (c == rest.get ⟨j, hj⟩) = false := by
        simp only [beq_eq_false_iff_ne, ne_eq]
        exact hne _ (List.get_mem rest j hj)
      rw [hv, idxOfQ, hcv]
      simp only [Bool.false_eq_true, if_false]
      rw [ih j hj hp2]
      rfl

/-- C2: under the data-model invariant, selecting position i of an axis and
selecting by the coordinate value stored at position i with exact matching
give identical results. -/
theorem sel_isel_agree {a : LArr} {ax : String} {cs : List ℚ} {i : Nat}
    (hw : a.wfB = true) (hc : a.coordsOf ax = some cs) (h : i < cs.length) :
    a.sel ax (cs.get ⟨i, h⟩) false = a.isel ax i := by
  have hnd : cs.Pairwise (· ≠ ·) :=
    (chainLt_pairwise (coordsOf_chainLt hw hc)).imp ne_of_lt
  unfold LArr.sel
  rw [hc]
  simp only [Bool.false_eq_true, if_false]
  rw [idxOfQ_get cs i h hnd]

/-- C2 witness: positional and exact coordinate selection agree on a
concrete two-axis array. -/
theorem sel_isel_agree_w : ex2.sel "x" 7 false = ex2.isel "x" 1 :=
  @sel_isel_agree ex2 "x" [5, 7] 1 (by decide) rfl (by decide)

/-- Elementwise value maps act on the flattened cells of a child list. -/
theorem valuesOfList_map (f : ℚ → ℚ) :
    ∀ l : List LArr, (∀ x ∈ l, (x.mapValues f).valuesOf = x.valuesOf.map f) →
      valuesOfList (l.map (LArr.mapValues f)) = (valuesOfList l).map f := by
  intro l
  induction l with
  | nil => intro _; rfl
  | cons x xs ih =>
    intro h
    simp only [List.map_cons, valuesOfList, List.map_append]
    rw [h x (by simp), ih (fun y hy => h y (by simp [hy]))]

/-- Elementwise value maps act on the flattened cells of an array. -/
theorem valuesOf_mapValues (f : ℚ → ℚ) (a : LArr) :
    (a.mapValues f).valuesOf = a.valuesOf.map f := by
  induction a using LArr.myInd with
  | hs q => rfl
  | ha n c ch ih =>
    simp only [mapValues_arr, LArr.valuesOf]
    exact valuesOfList_map f ch ih

/-- C10: elementwise scalar arithmetic (here subtraction of a constant, as
in the unit conversion darray - 273.15) changes only the numeric cells: the
skeleton, the named axes with their coordinate vectors, and every axis
length are unchanged, while the flattened cells are mapped pointwise. -/
theorem scalar_arith_frame (k : ℚ) (a : LArr) :
    (a.mapValues (fun v => v - k)).skeleton = a.skeleton ∧
    (a.mapValues (fun v => v - k)).axesSpec = a.axesSpec ∧
    (∀ ax, (a.mapValues (fun v => v - k)).coordsOf ax = a.coordsOf ax) ∧
    (∀ ax, (a.mapValues (fun v => v - k)).axisLen ax = a.axisLen ax) ∧
    (a.mapValues (fun v => v - k)).valuesOf = a.valuesOf.map (fun v => v - k) := by
  refine ⟨skeleton_mapValues _ a, axesSpec_mapValues _ a, ?_, ?_, valuesOf_mapValues _ a⟩
  · intro ax
    simp only [LArr.coordsOf, axesSpec_mapValues]
  · intro ax
    simp only [LArr.axisLen, LArr.coordsOf, axesSpec_mapValues]

/-- Sequencing succeeds exactly when the operation succeeds pointwise, with
the results aligned positionally. -/
theorem exSeq_ok_iff (f : LArr → Except QueryError LArr) :
    ∀ {l : List LArr} {l2 : List LArr},
      exSeq f l = .ok l2 ↔ List.Forall₂ (fun x y => f x = .ok y) l l2 := by
  intro l
  induction l with
  | nil =>
    intro l2
    constructor
    · intro h
      cases h
      exact List.Forall₂.nil
    · intro h
      cases h
      rfl
  | cons x xs ih =>
    intro l2
    constructor
    · intro h
      rw [exSeq] at h
      cases hfx : f x with
      | error e => rw [hfx] at h; cases h
      | ok y =>
        rw [hfx] at h
        cases hxs : exSeq f xs with
        | error e => rw [hxs] at h; cases h
        | ok ys =>
          rw [hxs] at h
          cases h
          exact List.Forall₂.cons hfx (ih.1 hxs)
    · intro h
      cases h with
      | cons hfx hrest =>
        rw [exSeq, hfx, ih.2 hrest]

/-- Sequencing succeeds when the operation succeeds on every element. -/
theorem exSeq_isOk (f : LArr → Except QueryError LArr) :
    ∀ l : List LArr, (∀ x ∈ l, ∃ y, f x = .ok y) →
      ∃ l2, exSeq f l = .ok l2 := by
  intro l
  induction l with
  | nil => intro _; exact ⟨[], rfl⟩
  | cons x xs ih =>
    intro h
    obtain ⟨y, hy⟩ := h x (by simp)
    obtain ⟨ys, hys⟩ := ih (fun z hz => h z (by simp [hz]))
    exact ⟨y :: ys, by rw [exSeq, hy, hys]⟩

/-- The child-list version of isel is an exSeq. -/
theorem iselList_eq (ax : String) (i : Nat) :
    ∀ l : List LArr, iselList ax i l = exSeq (fun x => x.isel ax i) l := by
  intro l
  induction l with
  | nil => rfl
  | cons x xs ih => rw [iselList, exSeq, ih]

/-- The child-list version of rangeSel is an exSeq. -/
theorem rangeSelList_eq (ax : String) (lo hi : ℚ) (il ih2 : Bool) :
    ∀ l : List LArr,
      rangeSelList ax lo hi il ih2 l = exSeq (fun x => x.rangeSel ax lo hi il ih2) l := by
  intro l
  induction l with
  | nil => rfl
  | cons x xs ih => rw [rangeSelList, exSeq, ih]

/-- The child-list version of meanA is an exSeq. -/
theorem meanList_eq (ax : String) :
    ∀ l : List LArr, meanList ax l = exSeq (fun x => x.meanA ax) l := by
  intro l
  induction l with
  | nil => rfl
  | cons x xs ih => rw [meanList, exSeq, ih]

/-- The child-list version of resampleAnnualMean is an exSeq. -/
theorem resampleList_eq (ax : String) :
    ∀ l : List LArr, resampleList ax l = exSeq (fun x => x.resampleAnnualMean ax) l := by
  intro l
  induction l with
  | nil => rfl
  | cons x xs ih => rw [resampleList, exSeq, ih]

/-- Introduction rule for the invariant at an axis node. -/
theorem wfB_arr_intro {n : String} {c : List ℚ} {ch : List LArr}
    (h1 : c.length = ch.length) (h2 : chainLt c = true)
    (h3 : ∀ x ∈ ch, x.wfB = true)
    (h4 : ∀ x ∈ ch, ∀ y ∈ ch, x.skeleton = y.skeleton) :
    (LArr.arr n c ch).wfB = true := by
  rw [wfB_arr]
  simp only [Bool.and_eq_true, beq_iff_eq, List.all_eq_true]
  refine ⟨⟨⟨h1, h2⟩, h3⟩, ?_⟩
  cases ch with
  | nil => rfl
  | cons x xs =>
    simp only [List.all_eq_true]
    intro y hy
    exact (LArr.beq_iff _ _).2 (h4 y (by simp [hy]) x (by simp))

/-- Arrays with equal skeletons expose the same axes. -/
theorem coordsOf_congr_skeleton {x y : LArr} (ax : String)
    (h : x.skeleton = y.skeleton) : x.coordsOf ax = y.coordsOf ax := by
  simp only [LArr.coordsOf, axesSpec_eq_of_skeleton_eq h]

/-- Elementwise value maps preserve the invariant. -/
theorem wfB_mapValues_of (f : ℚ → ℚ) :
    ∀ {a : LArr}, a.wfB = true → (a.mapValues f).wfB = true := by
  have main : ∀ a : LArr, a.wfB = true → (a.mapValues f).wfB = true := by
    intro a
    induction a using LArr.myInd with
    | hs q => intro _; rfl
    | ha n c ch ih =>
      intro hw
      obtain ⟨h1, h2, h3, h4⟩ := wfB_arr_parts hw
      rw [mapValues_arr]
      refine wfB_arr_intro (by simp [h1]) h2 ?_ ?_
      · intro z hz
        obtain ⟨x, hx, rfl⟩ := List.mem_map.1 hz
        exact ih x hx (h3 x hx)
      · intro z hz w hw2
        obtain ⟨x, hx, rfl⟩ := List.mem_map.1 hz
        obtain ⟨y, hy, rfl⟩ := List.mem_map.1 hw2
        rw [skeleton_mapValues, skeleton_mapValues]
        exact h4 x hx y hy
  intro a
  exact main a

/-- Transport a positional relation along two maps. -/
theorem forall2_map_of {R S : LArr → LArr → Prop} :
    ∀ {l l2 : List LArr}, List.Forall₂ R l l2 →
      ∀ (g1 g2 : LArr → LArr), (∀ x ∈ l, ∀ y, R x y → S (g1 x) (g2 y)) →
      List.Forall₂ S (l.map g1) (l2.map g2) := by
  intro l l2 h
  induction h with
  | nil => intro g1 g2 _; exact List.Forall₂.nil
  | cons hxy hrest ih =>
    intro g1 g2 himp
    refine List.Forall₂.cons (himp _ (by simp) _ hxy) ?_
    exact ih g1 g2 (fun x hx y hy => himp x (by simp [hx]) y hy)

/-- Each right element of a positional relation has a related left element. -/
theorem forall2_mem_right {R : LArr → LArr → Prop} :
    ∀ {l l2 : List LArr}, List.Forall₂ R l l2 →
      ∀ y ∈ l2, ∃ x ∈ l, R x y := by
  intro l l2 h
  induction h with
  | nil => intro y hy; cases hy
  | cons hxy hrest ih =>
    intro y hy
    rcases List.mem_cons.1 hy with h1 | h2
    · exact ⟨_, by simp, h1 ▸ hxy⟩
    · obtain ⟨x, hx, hr⟩ := ih y h2
      exact ⟨x, by simp [hx], hr⟩

/-- The unfolding of isel at an axis node, through exSeq. -/
theorem isel_arr (ax : String) (i : Nat) (n : String) (c : List ℚ) (ch : List LArr) :
    (LArr.arr n c ch).isel ax i =
      (if n == ax then
        (match ch[i]? with
         | some x => .ok x
         | none => .error .indexError)
      else
        (match exSeq (fun x => x.isel ax i) ch with
         | .ok ch2 => .ok (.arr n c ch2)
         | .error e => .error e)) := by
  rw [LArr.isel, iselList_eq]

/-- isel commutes with taking skeletons. -/
theorem isel_skeleton {ax : String} {i : Nat} :
    ∀ {a b : LArr}, a.isel ax i = .ok b → a.skeleton.isel ax i = .ok b.skeleton := by
  have main : ∀ a b : LArr, a.isel ax i = .ok b →
      a.skeleton.isel ax i = .ok b.skeleton := by
    intro a
    induction a using LArr.myInd with
    | hs q => intro b h; cases h
    | ha n c ch ih =>
      intro b h
      rw [isel_arr] at h
      rw [skeleton_arr, isel_arr]
      by_cases hax : (n == ax) = true
      · rw [if_pos hax] at h
        rw [if_pos hax]
        cases hchi : ch[i]? with
        | none => rw [hchi] at h; cases h
        | some x =>
          rw [hchi] at h
          cases h
          rw [List.getElem?_map, hchi]
          rfl
      · rw [if_neg hax] at h
        rw [if_neg hax]
        cases hseq : exSeq (fun x => x.isel ax i) ch with
        | error e => rw [hseq] at h; cases h
        | ok ch2 =>
          rw [hseq] at h
          cases h
          have h2 := (exSeq_ok_iff _).1 hseq
          have h3 : List.Forall₂ (fun x y => x.isel ax i = .ok y)
              (ch.map LArr.skeleton) (ch2.map LArr.skeleton) :=
            forall2_map_of h2 _ _ (fun x hx y hxy => ih x hx y hxy)
          rw [(exSeq_ok_iff _).2 h3, skeleton_arr]
  intro a b
  exact main a b

/-- isel preserves the data-model invariant. -/
theorem isel_wf {ax : String} {i : Nat} :
    ∀ {a b : LArr}, a.wfB = true → a.isel ax i = .ok b → b.wfB = true := by
  have main : ∀ a b : LArr, a.wfB = true → a.isel ax i = .ok b → b.wfB = true := by
    intro a
    induction a using LArr.myInd with
    | hs q => intro b _ h; cases h
    | ha n c ch ih =>
      intro b hw h
      obtain ⟨h1, h2, h3, h4⟩ := wfB_arr_parts hw
      rw [isel_arr] at h
      by_cases hax : (n == ax) = true
      · rw [if_pos hax] at h
        cases hchi : ch[i]? with
        | none => rw [hchi] at h; cases h
        | some x =>
          rw [hchi] at h
          cases h
          exact h3 _ (List.getElem?_mem hchi)
      · rw [if_neg hax] at h
        cases hseq : exSeq (fun x => x.isel ax i) ch with
        | error e => rw [hseq] at h; cases h
        | ok ch2 =>
          rw [hseq] at h
          cases h
          have hf := (exSeq_ok_iff _).1 hseq
          refine wfB_arr_intro (h1.trans hf.length_eq) h2 ?_ ?_
          · intro y hy
            obtain ⟨x, hx, hxy⟩ := forall2_mem_right hf y hy
            exact ih x hx y (h3 x hx) hxy
          · intro y1 hy1 y2 hy2
            obtain ⟨x1, hx1, hxy1⟩ := forall2_mem_right hf y1 hy1
            obtain ⟨x2, hx2, hxy2⟩ := forall2_mem_right hf y2 hy2
            have hs1 := isel_skeleton hxy1
            have hs2 := isel_skeleton hxy2
            rw [h4 x1 hx1 x2 hx2] at hs1
            exact Except.ok.inj (hs1.symm.trans hs2)
  intro a b
  exact main a b

/-- Under the invariant, isel succeeds whenever the axis exists and the
index is within the axis length. -/
theorem isel_isOk {ax : String} {i : Nat} :
    ∀ {a : LArr} {cs : List ℚ}, a.wfB = true → a.coordsOf ax = some cs →
      i < cs.length → ∃ b, a.isel ax i = .ok b := by
  have main : ∀ a : LArr, ∀ cs : List ℚ, a.wfB = true → a.coordsOf ax = some cs →
      i < cs.length → ∃ b, a.isel ax i = .ok b := by
    intro a
    induction a using LArr.myInd with
    | hs q => intro cs _ hc; cases hc
    | ha n c ch ih =>
      intro cs hw hc hi
      obtain ⟨h1, h2, h3, h4⟩ := wfB_arr_parts hw
      by_cases hax : n = ax
      · subst hax
        rw [coordsOf_arr_self] at hc
        cases hc
        have hib : i < ch.length := h1 ▸ hi
        refine ⟨ch.get ⟨i, hib⟩, ?_⟩
        rw [isel_arr, if_pos (by simp), List.getElem?_eq_getElem hib]
        rfl
      · rw [coordsOf_arr_ne hax] at hc
        cases ch with
        | nil => cases hc
        | cons x xs =>
          have hall : ∀ z ∈ x :: xs, z.coordsOf ax = some cs := by
            intro z hz
            rw [coordsOf_congr_skeleton ax (h4 z hz x (by simp))]
            exact hc
          obtain ⟨ch2, hch2⟩ := exSeq_isOk (fun z => z.isel ax i) (x :: xs)
            (fun z hz => ih z hz cs (h3 z hz) (hall z hz) hi)
          refine ⟨.arr n c ch2, ?_⟩
          rw [isel_arr, if_neg (by simp [hax]), hch2]
  intro a cs
  exact main a cs

/-- The unfolding of rangeSel at an axis node, through exSeq. -/
theorem rangeSel_arr (ax : String) (lo hi : ℚ) (il ih2 : Bool)
    (n : String) (c : List ℚ) (ch : List LArr) :
    (LArr.arr n c ch).rangeSel ax lo hi il ih2 =
      (if n == ax then
        .ok (.arr n
          (((c.zip ch).filter (fun p => memI lo hi il ih2 p.1)).map (fun p => p.1))
          (((c.zip ch).filter (fun p => memI lo hi il ih2 p.1)).map (fun p => p.2)))
      else
        (match exSeq (fun x => x.rangeSel ax lo hi il ih2) ch with
         | .ok ch2 => .ok (.arr n c ch2)
         | .error e => .error e)) := by
  rw [LArr.rangeSel, rangeSelList_eq]

/-- Filtering a zip list on its first components and projecting them equals
filtering the first list. -/
theorem kept_map_fst {c : List ℚ} {ch : List LArr} (p : ℚ → Bool)
    (hlen : c.length = ch.length) :
    ((c.zip ch).filter (fun q => p q.1)).map (fun q => q.1) = c.filter p := by
  rw [map_fst_filter]
  congr 1
  exact List.map_fst_zip c ch (le_of_eq hlen)

/-- rangeSel commutes with taking skeletons. -/
theorem rangeSel_skeleton {ax : String} {lo hi : ℚ} {il ih2 : Bool} :
    ∀ {a b : LArr}, a.rangeSel ax lo hi il ih2 = .ok b →
      a.skeleton.rangeSel ax lo hi il ih2 = .ok b.skeleton := by
  have main : ∀ a b : LArr, a.rangeSel ax lo hi il ih2 = .ok b →
      a.skeleton.rangeSel ax lo hi il ih2 = .ok b.skeleton := by
    intro a
    induction a using LArr.myInd with
    | hs q => intro b h; cases h
    | ha n c ch ih =>
      intro b h
      rw [rangeSel_arr] at h
      rw [skeleton_arr, rangeSel_arr]
      by_cases hax : (n == ax) = true
      · rw [if_pos hax] at h
        rw [if_pos hax]
        cases h
        have hz : c.zip (ch.map LArr.skeleton) =
            (c.zip ch).map (fun q => (q.1, q.2.skeleton)) := by
          rw [List.zip_map_right]
          rfl
        rw [hz, List.filter_map, List.map_map, List.map_map, skeleton_arr,
          List.map_map]
        rfl
      · rw [if_neg hax] at h
        rw [if_neg hax]
        cases hseq : exSeq (fun x => x.rangeSel ax lo hi il ih2) ch with
        | error e => rw [hseq] at h; cases h
        | ok ch2 =>
          rw [hseq] at h
          cases h
          have h2 := (exSeq_ok_iff _).1 hseq
          have h3 : List.Forall₂ (fun x y => x.rangeSel ax lo hi il ih2 = .ok y)
              (ch.map LArr.skeleton) (ch2.map LArr.skeleton) :=
            forall2_map_of h2 _ _ (fun x hx y hxy => ih x hx y hxy)
          rw [(exSeq_ok_iff _).2 h3, skeleton_arr]
  intro a b
  exact main a b

/-- rangeSel preserves the data-model invariant. -/
theorem rangeSel_wf {ax : String} {lo hi : ℚ} {il ih2 : Bool} :
    ∀ {a b : LArr}, a.wfB = true → a.rangeSel ax lo hi il ih2 = .ok b →
      b.wfB = true := by
  have main : ∀ a b : LArr, a.wfB = true → a.rangeSel ax lo hi il ih2 = .ok b →
      b.wfB = true := by
    intro a
    induction a using LArr.myInd with
    | hs q => intro b _ h; cases h
    | ha n c ch ih =>
      intro b hw h
      obtain ⟨h1, h2, h3, h4⟩ := wfB_arr_parts hw
      rw [rangeSel_arr] at h
      by_cases hax : (n == ax) = true
      · rw [if_pos hax] at h
        cases h
        have hmem : ∀ y ∈ ((c.zip ch).filter
            (fun p => memI lo hi il ih2 p.1)).map (fun p => p.2), y ∈ ch := by
          intro y hy
          obtain ⟨q, hq, rfl⟩ := List.mem_map.1 hy
          have hq2 := List.mem_of_mem_filter hq
          exact (List.of_mem_zip hq2).2
        refine wfB_arr_intro (by simp) ?_ ?_ ?_
        · refine chainLt_sublist ?_ h2
          rw [kept_map_fst _ h1]
          exact List.filter_sublist c
        · intro y hy
          exact h3 y (hmem y hy)
        · intro y1 hy1 y2 hy2
          exact h4 y1 (hmem y1 hy1) y2 (hmem y2 hy2)
      · rw [if_neg hax] at h
        cases hseq : exSeq (fun x => x.rangeSel ax lo hi il ih2) ch with
        | error e => rw [hseq] at h; cases h
        | ok ch2 =>
          rw [hseq] at h
          cases h
          have hf := (exSeq_ok_iff _).1 hseq
          refine wfB_arr_intro (h1.trans hf.length_eq) h2 ?_ ?_
          · intro y hy
            obtain ⟨x, hx, hxy⟩ := forall2_mem_right hf y hy
            exact ih x hx y (h3 x hx) hxy
          · intro y1 hy1 y2 hy2
            obtain ⟨x1, hx1, hxy1⟩ := forall2_mem_right hf y1 hy1
            obtain ⟨x2, hx2, hxy2⟩ := forall2_mem_right hf y2 hy2
            have hs1 := rangeSel_skeleton hxy1
            have hs2 := rangeSel_skeleton hxy2
            rw [h4 x1 hx1 x2 hx2] at hs1
            exact Except.ok.inj (hs1.symm.trans hs2)
  intro a b
  exact main a b

/-- C8: under the invariant, range selection on a named axis of the array
never fails: it returns the sub-array whose coordinate values fall within
the (half-open or closed) interval, and an empty selection is an empty
result, not an error. -/
theorem rangeSel_total_spec {ax : String} :
    ∀ {a : LArr} {cs : List ℚ}, a.wfB = true → a.coordsOf ax = some cs →
      ∀ (lo hi : ℚ) (il ih2 : Bool),
      ∃ b, a.rangeSel ax lo hi il ih2 = .ok b ∧
        b.coordsOf ax = some (cs.filter (memI lo hi il ih2)) := by
  have main : ∀ a : LArr, ∀ cs : List ℚ, a.wfB = true → a.coordsOf ax = some cs →
      ∀ (lo hi : ℚ) (il ih2 : Bool),
      ∃ b, a.rangeSel ax lo hi il ih2 = .ok b ∧
        b.coordsOf ax = some (cs.filter (memI lo hi il ih2)) := by
    intro a
    induction a using LArr.myInd with
    | hs q => intro cs _ hc; cases hc
    | ha n c ch ih =>
      intro cs hw hc lo hi il ih2
      obtain ⟨h1, h2, h3, h4⟩ := wfB_arr_parts hw
      by_cases hax : n = ax
      · subst hax
        rw [coordsOf_arr_self] at hc
        cases hc
        refine ⟨.arr n
          (((c.zip ch).filter (fun p => memI lo hi il ih2 p.1)).map (fun p => p.1))
          (((c.zip ch).filter (fun p => memI lo hi il ih2 p.1)).map (fun p => p.2)),
          ?_, ?_⟩
        · rw [rangeSel_arr, if_pos (by simp)]
        · rw [coordsOf_arr_self, kept_map_fst _ h1]
      · rw [coordsOf_arr_ne hax] at hc
        cases ch with
        | nil => cases hc
        | cons x xs =>
          have hall : ∀ z ∈ x :: xs, z.coordsOf ax = some cs := by
            intro z hz
            rw [coordsOf_congr_skeleton ax (h4 z hz x (by simp))]
            exact hc
          obtain ⟨ch2, hch2⟩ := exSeq_isOk (fun z => z.rangeSel ax lo hi il ih2) (x :: xs)
            (fun z hz => by
              obtain ⟨b, hb, -⟩ := ih z hz cs (h3 z hz) (hall z hz) lo hi il ih2
              exact ⟨b, hb⟩)
          have hf := (exSeq_ok_iff _).1 hch2
          cases hf with
          | cons hxy hrest =>
            rename_i y ys
            refine ⟨.arr n c (y :: ys), ?_, ?_⟩
            · rw [rangeSel_arr, if_neg (by simp [hax]), hch2]
            · obtain ⟨b, hb, hbc⟩ := ih x (by simp) cs (h3 x (by simp))
                (hall x (by simp)) lo hi il ih2
              rw [hb] at hxy
              cases hxy
              rw [coordsOf_arr_ne hax]
              exact hbc
  intro a cs
  exact main a cs

/-- C8 witness: a closed interval matching nothing yields an empty
sub-array, not an error, on a concrete two-axis array. -/
theorem rangeSel_total_spec_w :
    ∃ b, ex2.rangeSel "x" 8 9 true true = .ok b ∧
      b.coordsOf "x" = some ([5, 7].filter (memI 8 9 true true)) :=
  @rangeSel_total_spec "x" ex2 [5, 7] (by decide) rfl 8 9 true true

/-- nearestIdx misses only on an empty coordinate vector. -/
theorem nearestIdx_none_iff (v : ℚ) :
    ∀ cs : List ℚ, nearestIdx v cs = none ↔ cs = [] := by
  intro cs
  cases cs with
  | nil => simp [nearestIdx]
  | cons c rest =>
    rw [nearestIdx]
    cases hrec : nearestIdx v rest with
    | none => simp
    | some j =>
      show (if |c - v| ≤ |rest.getD j 0 - v| then some 0 else some (j + 1) :
        Option Nat) = none ↔ c :: rest = []
      by_cases hle : |c - v| ≤ |rest.getD j 0 - v|
      · rw [if_pos hle]; simp
      · rw [if_neg hle]; simp

/-- A hit of nearestIdx is a position on the axis. -/
theorem nearestIdx_lt (v : ℚ) :
    ∀ {cs : List ℚ} {j : Nat}, nearestIdx v cs = some j → j < cs.length := by
  intro cs
  induction cs with
  | nil => intro j h; cases h
  | cons c rest ih =>
    intro j h
    rw [nearestIdx] at h
    split at h
    · cases h
      simp
    · rename_i j2 hrec
      split at h
      · cases h
        simp
      · cases h
        have := ih hrec
        simpa using Nat.succ_lt_succ this

/-- The position found by nearestIdx minimizes the distance to the query
value over the whole coordinate vector. -/
theorem nearestIdx_min (v : ℚ) :
    ∀ {cs : List ℚ} {j : Nat} (h : nearestIdx v cs = some j)
      (hj : j < cs.length) (k : Nat) (hk : k < cs.length),
      |cs.get ⟨j, hj⟩ - v| ≤ |cs.get ⟨k, hk⟩ - v| := by
  intro cs
  induction cs with
  | nil => intro j h; cases h
  | cons c rest ih =>
    intro j h hj k hk
    rw [nearestIdx] at h
    split at h
    · rename_i hrec
      cases h
      have hnil : rest = [] := (nearestIdx_none_iff v rest).1 hrec
      subst hnil
      cases k with
      | zero => exact le_refl _
      | succ k2 => simp at hk
    · rename_i j2 hrec
      have hj2 : j2 < rest.length := nearestIdx_lt v hrec
      have hgetD : rest.getD j2 0 = rest.get ⟨j2, hj2⟩ := by
        rw [List.getD_eq_getElem?_getD, List.getElem?_eq_getElem hj2]
        rfl
      split at h
      · rename_i hle
        cases h
        cases k with
        | zero => exact le_refl _
        | succ k2 =>
          have hk2 : k2 < rest.length := Nat.lt_of_succ_lt_succ hk
          have h2 := ih hrec hj2 k2 hk2
          rw [hgetD] at hle
          exact le_trans hle h2
      · rename_i hle
        cases h
        cases k with
        | zero =>
          rw [hgetD] at hle
          exact le_of_lt (lt_of_not_le hle)
        | succ k2 =>
          have hk2 : k2 < rest.length := Nat.lt_of_succ_lt_succ hk
          exact ih hrec hj2 k2 hk2

/-- C9: under the invariant, nearest-match coordinate selection on a
nonempty axis always succeeds, even with no exact match: it selects the
position whose coordinate value is closest to the query value, and equals
the positional selection at that position. -/
theorem sel_nearest_total {ax : String} {a : LArr} {cs : List ℚ} {v : ℚ}
    (hw : a.wfB = true) (hc : a.coordsOf ax = some cs) (hne : cs ≠ []) :
    ∃ j, ∃ hj : j < cs.length, nearestIdx v cs = some j ∧
      (∀ k (hk : k < cs.length), |cs.get ⟨j, hj⟩ - v| ≤ |cs.get ⟨k, hk⟩ - v|) ∧
      a.sel ax v true = a.isel ax j ∧
      ∃ b, a.isel ax j = .ok b := by
  cases hn : nearestIdx v cs with
  | none => exact absurd ((nearestIdx_none_iff v cs).1 hn) hne
  | some j =>
    have hj : j < cs.length := nearestIdx_lt v hn
    refine ⟨j, hj, rfl, fun k hk => nearestIdx_min v hn hj k hk, ?_, ?_⟩
    · unfold LArr.sel
      rw [hc]
      simp only [if_true]
      rw [hn]
    · exact isel_isOk hw hc hj

/-- C9 witness: nearest selection at a query value with no exact match on a
concrete two-axis array. -/
theorem sel_nearest_total_w :
    ∃ j, ∃ hj : j < ([(5 : ℚ), 7]).length, nearestIdx 6 [5, 7] = some j ∧
      (∀ k (hk : k < ([(5 : ℚ), 7]).length),
        |([(5 : ℚ), 7]).get ⟨j, hj⟩ - 6| ≤ |([(5 : ℚ), 7]).get ⟨k, hk⟩ - 6|) ∧
      ex2.sel "x" 6 true = ex2.isel "x" j ∧
      ∃ b, ex2.isel "x" j = .ok b :=
  @sel_nearest_total "x" ex2 [5, 7] 6 (by decide) rfl (by decide)

/-- Composition of elementwise value maps. -/
theorem mapValues_comp (f g : ℚ → ℚ) (a : LArr) :
    (a.mapValues g).mapValues f = a.mapValues (fun v => f (g v)) := by
  induction a using LArr.myInd with
  | hs q => rfl
  | ha n c ch ih =>
    simp only [mapValues_arr, List.map_map]
    congr 1
    exact List.map_congr_left (fun x hx => ih x hx)

/-- Scaling a skeleton leaves it unchanged (all cells are zero). -/
theorem scaleA_skeleton (k : ℚ) (t : LArr) :
    t.skeleton.scaleA k = t.skeleton := by
  show (t.mapValues (fun _ => 0)).mapValues (fun v => k * v) = t.skeleton
  rw [mapValues_comp]
  have hf : (fun v : ℚ => k * 0) = (fun _ : ℚ => (0 : ℚ)) := by
    funext v
    exact mul_zero k
  rw [hf]
  rfl

/-- Pointwise sums of child lists, elementwise skeleton version. -/
theorem skeleton_addList :
    ∀ (l l2 : List LArr),
      (∀ z ∈ l, ∀ w : LArr, (z.addA w).skeleton = z.skeleton.addA w.skeleton) →
      (addList l l2).map LArr.skeleton =
        addList (l.map LArr.skeleton) (l2.map LArr.skeleton) := by
  intro l
  induction l with
  | nil => intro l2 _; cases l2 <;> rfl
  | cons z zs ih =>
    intro l2 hmem
    cases l2 with
    | nil => rfl
    | cons w ws =>
      show (z.addA w).skeleton :: (addList zs ws).map LArr.skeleton =
        z.skeleton.addA w.skeleton :: addList (zs.map LArr.skeleton) (ws.map LArr.skeleton)
      rw [hmem z (by simp) w, ih ws (fun u hu => hmem u (by simp [hu]))]

/-- Pointwise sum commutes with taking skeletons. -/
theorem skeleton_addA : ∀ x y : LArr, (x.addA y).skeleton = x.skeleton.addA y.skeleton := by
  intro x
  induction x using LArr.myInd with
  | hs q =>
    intro y
    cases y with
    | scalar w =>
      show LArr.scalar 0 = .scalar (0 + 0)
      rw [add_zero]
    | arr n c ch => rfl
  | ha n c ch ih =>
    intro y
    cases y with
    | scalar w => rfl
    | arr n2 c2 ch2 =>
      show LArr.skeleton (.arr n c (addList ch ch2)) =
        (LArr.arr n c ch).skeleton.addA (LArr.arr n2 c2 ch2).skeleton
      rw [skeleton_arr, skeleton_arr, skeleton_arr]
      show LArr.arr n c ((addList ch ch2).map LArr.skeleton) =
        .arr n c (addList (ch.map LArr.skeleton) (ch2.map LArr.skeleton))
      rw [skeleton_addList ch ch2 (fun z hz w => ih z hz w)]

/-- Folding pointwise sums commutes with taking skeletons. -/
theorem skeleton_foldl : ∀ (xs : List LArr) (x : LArr),
    (xs.foldl LArr.addA x).skeleton = (xs.map LArr.skeleton).foldl LArr.addA x.skeleton := by
  intro xs
  induction xs with
  | nil => intro x; rfl
  | cons y ys ih =>
    intro x
    simp only [List.foldl_cons, List.map_cons]
    rw [ih (x.addA y), skeleton_addA]

/-- Pointwise sum of same-shape well-formed arrays is well formed and keeps
the shape. -/
theorem addA_wf : ∀ x y : LArr, x.wfB = true → y.wfB = true →
    y.skeleton = x.skeleton →
    (x.addA y).wfB = true ∧ (x.addA y).skeleton = x.skeleton := by
  intro x
  induction x using LArr.myInd with
  | hs q =>
    intro y _ _ hsk
    cases y with
    | scalar w => exact ⟨rfl, rfl⟩
    | arr n c ch =>
      rw [skeleton_arr, skeleton_scalar] at hsk
      cases hsk
  | ha n c ch ih =>
    intro y hwx hwy hsk
    cases y with
    | scalar w =>
      rw [skeleton_scalar, skeleton_arr] at hsk
      cases hsk
    | arr n2 c2 ch2 =>
      rw [skeleton_arr, skeleton_arr] at hsk
      injection hsk with hn hc hch
      have hn2 := hn.symm
      subst hn2
      have hc2 := hc.symm
      subst hc2
      obtain ⟨h1, h2, h3, h4⟩ := wfB_arr_parts hwx
      obtain ⟨-, -, h3b, -⟩ := wfB_arr_parts hwy
      have key : ∀ (l l2 : List LArr),
          (∀ z ∈ l, ∀ w : LArr, z.wfB = true → w.wfB = true →
            w.skeleton = z.skeleton →
            (z.addA w).wfB = true ∧ (z.addA w).skeleton = z.skeleton) →
          (∀ z ∈ l, z.wfB = true) → (∀ w ∈ l2, w.wfB = true) →
          l2.map LArr.skeleton = l.map LArr.skeleton →
          (∀ u ∈ addList l l2, u.wfB = true) ∧
          (addList l l2).map LArr.skeleton = l.map LArr.skeleton := by
        intro l
        induction l with
        | nil =>
          intro l2 _ _ _ hm
          cases l2 with
          | nil => exact ⟨fun u hu => absurd hu (by simp [addList]), rfl⟩
          | cons w ws => simp at hm
        | cons z zs ihl =>
          intro l2 hmem hwl hwl2 hm
          cases l2 with
          | nil => simp at hm
          | cons w ws =>
            simp only [List.map_cons, List.cons.injEq] at hm
            obtain ⟨hm1, hm2⟩ := hm
            have hha := hmem z (by simp) w (hwl z (by simp)) (hwl2 w (by simp)) hm1
            have hrest := ihl ws (fun u hu w2 => hmem u (by simp [hu]) w2)
              (fun u hu => hwl u (by simp [hu])) (fun u hu => hwl2 u (by simp [hu])) hm2
            constructor
            · intro u hu
              have : u = z.addA w ∨ u ∈ addList zs ws := by
                simpa [addList] using hu
              rcases this with h | h
              · rw [h]; exact hha.1
              · exact hrest.1 u h
            · show (z.addA w).skeleton :: (addList zs ws).map LArr.skeleton =
                z.skeleton :: zs.map LArr.skeleton
              rw [hha.2, hrest.2]
      have hk := key ch ch2 (fun z hz w => ih z hz w) h3 h3b hch
      have hlen : (addList ch ch2).length = ch.length := by
        have := congrArg List.length hk.2
        simpa using this
      constructor
      · show (LArr.arr n c (addList ch ch2)).wfB = true
        refine wfB_arr_intro (h1.trans hlen.symm) h2 hk.1 ?_
        intro u1 hu1 u2 hu2
        have hsk' : ∀ u ∈ addList ch ch2, ∃ x2 ∈ ch, u.skeleton = x2.skeleton := by
          intro u hu
          have : u.skeleton ∈ (addList ch ch2).map LArr.skeleton := List.mem_map_of_mem _ hu
          rw [hk.2] at this
          obtain ⟨x2, hx2, hx2e⟩ := List.mem_map.1 this
          exact ⟨x2, hx2, hx2e.symm⟩
        obtain ⟨x1, hx1, he1⟩ := hsk' u1 hu1
        obtain ⟨x2, hx2, he2⟩ := hsk' u2 hu2
        rw [he1, he2]
        exact h4 x1 hx1 x2 hx2
      · show (LArr.arr n c (addList ch ch2)).skeleton = (LArr.arr n c ch).skeleton
        rw [skeleton_arr, skeleton_arr, hk.2]

/-- Folding pointwise sums over same-shape well-formed arrays is well formed
and keeps the shape. -/
theorem foldl_addA_wf : ∀ (xs : List LArr) (x : LArr), x.wfB = true →
    (∀ y ∈ xs, y.wfB = true) → (∀ y ∈ xs, y.skeleton = x.skeleton) →
    (xs.foldl LArr.addA x).wfB = true ∧
    (xs.foldl LArr.addA x).skeleton = x.skeleton := by
  intro xs
  induction xs with
  | nil => intro x hw _ _; exact ⟨hw, rfl⟩
  | cons y ys ih =>
    intro x hw hys hsk
    have ha := addA_wf x y hw (hys y (by simp)) (hsk y (by simp))
    simp only [List.foldl_cons]
    have hr := ih (x.addA y) ha.1 (fun z hz => hys z (by simp [hz]))
      (fun z hz => (hsk z (by simp [hz])).trans ha.2.symm)
    exact ⟨hr.1, hr.2.trans ha.2⟩

/-- The pointwise average of a nonempty uniform family of well-formed
children is well formed and keeps the common shape. -/
theorem avg_wf (x : LArr) (xs : List LArr) (hw : x.wfB = true)
    (hys : ∀ y ∈ xs, y.wfB = true) (hsk : ∀ y ∈ xs, y.skeleton = x.skeleton) :
    (avgChildren (x :: xs)).wfB = true ∧
    (avgChildren (x :: xs)).skeleton = x.skeleton := by
  have hf := foldl_addA_wf xs x hw hys hsk
  constructor
  · exact wfB_mapValues_of _ hf.1
  · show ((xs.foldl LArr.addA x).mapValues _).skeleton = x.skeleton
    rw [skeleton_mapValues]
    exact hf.2

/-- The pointwise average commutes with taking skeletons. -/
theorem avg_skeleton (x : LArr) (xs : List LArr) :
    avgChildren ((x :: xs).map LArr.skeleton) = (avgChildren (x :: xs)).skeleton := by
  show LArr.scaleA (1 / (((xs.map LArr.skeleton).length + 1 : Nat) : ℚ))
      ((xs.map LArr.skeleton).foldl LArr.addA x.skeleton) =
    (LArr.scaleA (1 / ((xs.length + 1 : Nat) : ℚ)) (xs.foldl LArr.addA x)).skeleton
  rw [List.length_map, ← skeleton_foldl]
  show (xs.foldl LArr.addA x).skeleton.scaleA _ = _
  rw [scaleA_skeleton]
  show _ = ((xs.foldl LArr.addA x).mapValues _).skeleton
  rw [skeleton_mapValues]

/-- The unfolding of meanA at an axis node, through exSeq. -/
theorem meanA_arr (ax : String) (n : String) (c : List ℚ) (ch : List LArr) :
    (LArr.arr n c ch).meanA ax =
      (if n == ax then
        (match ch with
         | [] => .error .emptyResult
         | x :: xs => .ok (avgChildren (x :: xs)))
      else
        (match exSeq (fun x => x.meanA ax) ch with
         | .ok ch2 => .ok (.arr n c ch2)
         | .error e => .error e)) := by
  have h0 : (LArr.arr n c ch).meanA ax =
      (if n == ax then
        (match ch with
         | [] => .error .emptyResult
         | x :: xs => .ok (avgChildren (x :: xs)))
      else
        (match meanList ax ch with
         | .ok ch2 => .ok (.arr n c ch2)
         | .error e => .error e)) := rfl
  rw [h0, meanList_eq]

/-- meanA commutes with taking skeletons. -/
theorem meanA_skeleton {ax : String} :
    ∀ {a b : LArr}, a.meanA ax = .ok b → a.skeleton.meanA ax = .ok b.skeleton := by
  have main : ∀ a b : LArr, a.meanA ax = .ok b →
      a.skeleton.meanA ax = .ok b.skeleton := by
    intro a
    induction a using LArr.myInd with
    | hs q => intro b h; cases h
    | ha n c ch ih =>
      intro b h
      rw [meanA_arr] at h
      rw [skeleton_arr, meanA_arr]
      by_cases hax : (n == ax) = true
      · rw [if_pos hax] at h
        rw [if_pos hax]
        cases ch with
        | nil => cases h
        | cons x xs =>
          cases h
          simp only [List.map_cons]
          rw [show (x.skeleton :: xs.map LArr.skeleton) =
            ((x :: xs).map LArr.skeleton) from rfl, avg_skeleton]
      · rw [if_neg hax] at h
        rw [if_neg hax]
        cases hseq : exSeq (fun x => x.meanA ax) ch with
        | error e => rw [hseq] at h; cases h
        | ok ch2 =>
          rw [hseq] at h
          cases h
          have h2 := (exSeq_ok_iff _).1 hseq
          have h3 : List.Forall₂ (fun x y => x.meanA ax = .ok y)
              (ch.map LArr.skeleton) (ch2.map LArr.skeleton) :=
            forall2_map_of h2 _ _ (fun x hx y hxy => ih x hx y hxy)
          rw [(exSeq_ok_iff _).2 h3, skeleton_arr]
  intro a b
  exact main a b

/-- meanA preserves the data-model invariant. -/
theorem meanA_wf {ax : String} :
    ∀ {a b : LArr}, a.wfB = true → a.meanA ax = .ok b → b.wfB = true := by
  have main : ∀ a b : LArr, a.wfB = true → a.meanA ax = .ok b → b.wfB = true := by
    intro a
    induction a using LArr.myInd with
    | hs q => intro b _ h; cases h
    | ha n c ch ih =>
      intro b hw h
      obtain ⟨h1, h2, h3, h4⟩ := wfB_arr_parts hw
      rw [meanA_arr] at h
      by_cases hax : (n == ax) = true
      · rw [if_pos hax] at h
        cases ch with
        | nil => cases h
        | cons x xs =>
          cases h
          exact (avg_wf x xs (h3 x (by simp)) (fun y hy => h3 y (by simp [hy]))
            (fun y hy => h4 y (by simp [hy]) x (by simp))).1
      · rw [if_neg hax] at h
        cases hseq : exSeq (fun x => x.meanA ax) ch with
        | error e => rw [hseq] at h; cases h
        | ok ch2 =>
          rw [hseq] at h
          cases h
          have hf := (exSeq_ok_iff _).1 hseq
          refine wfB_arr_intro (h1.trans hf.length_eq) h2 ?_ ?_
          · intro y hy
            obtain ⟨x, hx, hxy⟩ := forall2_mem_right hf y hy
            exact ih x hx y (h3 x hx) hxy
          · intro y1 hy1 y2 hy2
            obtain ⟨x1, hx1, hxy1⟩ := forall2_mem_right hf y1 hy1
            obtain ⟨x2, hx2, hxy2⟩ := forall2_mem_right hf y2 hy2
            have hs1 := meanA_skeleton hxy1
            have hs2 := meanA_skeleton hxy2
            rw [h4 x1 hx1 x2 hx2] at hs1
            exact Except.ok.inj (hs1.symm.trans hs2)
  intro a b
  exact main a b

/-- The unfolding of groupYears at a cons cell. -/
theorem groupYears_cons (t : ℚ) (x : LArr) (rest : List (ℚ × LArr)) :
    groupYears ((t, x) :: rest) =
      (match groupYears rest with
       | [] => [(⌊t⌋, [x])]
       | (y, g) :: more =>
         if ⌊t⌋ == y then (y, x :: g) :: more
         else (⌊t⌋, [x]) :: (y, g) :: more) := rfl

/-- groupYears at a cons cell whose tail has no buckets. -/
theorem groupYears_cons_nil {rest : List (ℚ × LArr)} (t : ℚ) (x : LArr)
    (h : groupYears rest = []) :
    groupYears ((t, x) :: rest) = [(⌊t⌋, [x])] := by
  rw [groupYears_cons, h]

/-- groupYears at a cons cell whose tail has a first bucket. -/
theorem groupYears_cons_cons {rest : List (ℚ × LArr)} (t : ℚ) (x : LArr)
    {y : ℤ} {gg : List LArr} {more : List (ℤ × List LArr)}
    (h : groupYears rest = (y, gg) :: more) :
    groupYears ((t, x) :: rest) =
      (if ⌊t⌋ == y then (y, x :: gg) :: more
       else (⌊t⌋, [x]) :: (y, gg) :: more) := by
  rw [groupYears_cons, h]

/-- The unfolding of yearsOf at a cons cell. -/
theorem yearsOf_cons (t : ℚ) (rest : List ℚ) :
    yearsOf (t :: rest) =
      (match yearsOf rest with
       | [] => [⌊t⌋]
       | y :: more => if ⌊t⌋ == y then y :: more else ⌊t⌋ :: y :: more) := rfl

/-- yearsOf at a cons cell whose tail has no years. -/
theorem yearsOf_cons_nil {rest : List ℚ} (t : ℚ) (h : yearsOf rest = []) :
    yearsOf (t :: rest) = [⌊t⌋] := by
  rw [yearsOf_cons, h]

/-- yearsOf at a cons cell whose tail has a first year. -/
theorem yearsOf_cons_cons {rest : List ℚ} (t : ℚ) {y : ℤ} {more : List ℤ}
    (h : yearsOf rest = y :: more) :
    yearsOf (t :: rest) =
      (if ⌊t⌋ == y then y :: more else ⌊t⌋ :: y :: more) := by
  rw [yearsOf_cons, h]

/-- The bucket labels of groupYears are the distinct consecutive years of
the time stamps. -/
theorem groupYears_labels :
    ∀ ps : List (ℚ × LArr),
      (groupYears ps).map (fun g => g.1) = yearsOf (ps.map (fun p => p.1)) := by
  intro ps
  induction ps with
  | nil => rfl
  | cons p rest ih =>
    obtain ⟨t, x⟩ := p
    cases hrest : groupYears rest with
    | nil =>
      have hy : yearsOf (rest.map (fun p => p.1)) = [] := by
        rw [← ih, hrest]
        rfl
      rw [List.map_cons, groupYears_cons_nil t x hrest, yearsOf_cons_nil t hy]
      rfl
    | cons g more =>
      obtain ⟨y, gg⟩ := g
      have hy : yearsOf (rest.map (fun p => p.1)) = y :: more.map (fun g => g.1) := by
        rw [← ih, hrest]
        rfl
      rw [List.map_cons, groupYears_cons_cons t x hrest, yearsOf_cons_cons t hy]
      by_cases hb : (⌊t⌋ == y) = true
      · rw [if_pos hb, if_pos hb]
        rfl
      · rw [if_neg hb, if_neg hb]
        rfl

/-- Every bucket of groupYears is nonempty. -/
theorem groupYears_nonempty :
    ∀ ps : List (ℚ × LArr), ∀ g ∈ groupYears ps, g.2 ≠ [] := by
  intro ps
  induction ps with
  | nil => intro g hg; cases hg
  | cons p rest ih =>
    obtain ⟨t, x⟩ := p
    intro g hg
    cases hrest : groupYears rest with
    | nil =>
      rw [groupYears_cons_nil t x hrest] at hg
      rcases List.mem_singleton.1 hg with rfl
      simp
    | cons q more =>
      obtain ⟨y, gg⟩ := q
      rw [groupYears_cons_cons t x hrest] at hg
      by_cases hb : (⌊t⌋ == y) = true
      · rw [if_pos hb] at hg
        rcases List.mem_cons.1 hg with rfl | h2
        · simp
        · exact ih g (hrest ▸ List.mem_cons_of_mem _ h2)
      · rw [if_neg hb] at hg
        rcases List.mem_cons.1 hg with rfl | h2
        · simp
        · exact ih g (hrest ▸ h2)

/-- Every member of a bucket comes from a sample of that year. -/
theorem groupYears_mem :
    ∀ ps : List (ℚ × LArr), ∀ g ∈ groupYears ps, ∀ x ∈ g.2,
      ∃ t, (t, x) ∈ ps ∧ ⌊t⌋ = g.1 := by
  intro ps
  induction ps with
  | nil => intro g hg; cases hg
  | cons p rest ih =>
    obtain ⟨t, x⟩ := p
    intro g hg z hz
    cases hrest : groupYears rest with
    | nil =>
      rw [groupYears_cons_nil t x hrest] at hg
      rcases List.mem_singleton.1 hg with rfl
      rcases List.mem_singleton.1 hz with rfl
      exact ⟨t, by simp, rfl⟩
    | cons q more =>
      obtain ⟨y, gg⟩ := q
      rw [groupYears_cons_cons t x hrest] at hg
      by_cases hb : (⌊t⌋ == y) = true
      · rw [if_pos hb] at hg
        rcases List.mem_cons.1 hg with rfl | h2
        · rcases List.mem_cons.1 hz with rfl | h3
          · exact ⟨t, by simp, by simpa using hb⟩
          · obtain ⟨t2, ht2, he⟩ := ih (y, gg) (hrest ▸ by simp) z h3
            exact ⟨t2, by simp [ht2], he⟩
        · obtain ⟨t2, ht2, he⟩ := ih g (hrest ▸ List.mem_cons_of_mem _ h2) z hz
          exact ⟨t2, by simp [ht2], he⟩
      · rw [if_neg hb] at hg
        rcases List.mem_cons.1 hg with rfl | h2
        · rcases List.mem_singleton.1 hz with rfl
          exact ⟨t, by simp, rfl⟩
        · obtain ⟨t2, ht2, he⟩ := ih g (hrest ▸ h2) z hz
          exact ⟨t2, by simp [ht2], he⟩

/-- The bucket labels of chronologically ordered samples are strictly
increasing, and the first label is the year of the first sample. -/
theorem groupYears_chain :
    ∀ ps : List (ℚ × LArr), chainLt (ps.map (fun p => p.1)) = true →
      List.Chain' (· < ·) ((groupYears ps).map (fun g => g.1)) ∧
      ((groupYears ps).head?).map (fun g => g.1) =
        (ps.head?).map (fun p => ⌊p.1⌋) := by
  intro ps
  induction ps with
  | nil => exact fun _ => ⟨List.chain'_nil, rfl⟩
  | cons p rest ih =>
    obtain ⟨t, x⟩ := p
    intro hch
    cases rest with
    | nil => exact ⟨List.chain'_singleton _, rfl⟩
    | cons p2 rest2 =>
      obtain ⟨t2, x2⟩ := p2
      have hch2 : chainLt (((t2, x2) :: rest2).map (fun p => p.1)) = true ∧
          t < t2 := by
        rw [List.map_cons, List.map_cons, chainLt] at hch
        rw [Bool.and_eq_true, decide_eq_true_iff] at hch
        exact ⟨by rw [List.map_cons]; exact hch.2, hch.1⟩
      have hih := ih hch2.1
      cases hrest : groupYears ((t2, x2) :: rest2) with
      | nil =>
        rw [hrest] at hih
        simp at hih
      | cons q more =>
        obtain ⟨y, gg⟩ := q
        rw [hrest] at hih
        have hy : y = ⌊t2⌋ := by
          have h5 := hih.2
          simp only [List.head?_cons, Option.map_some] at h5
          exact Option.some.inj h5
        rw [groupYears_cons_cons t x hrest]
        by_cases hb : (⌊t⌋ == y) = true
        · rw [if_pos hb]
          refine ⟨hih.1, ?_⟩
          have hbe : ⌊t⌋ = y := by simpa using hb
          simp [hbe]
        · rw [if_neg hb]
          have hlt : ⌊t⌋ < y := by
            have hle : ⌊t⌋ ≤ ⌊t2⌋ := Int.floor_le_floor (le_of_lt hch2.2)
            have hne : ⌊t⌋ ≠ y := by simpa using hb
            exact lt_of_le_of_ne (hy ▸ hle) hne
          refine ⟨?_, by simp⟩
          rw [List.map_cons, List.chain'_cons']
          constructor
          · intro z hz
            simp only [List.map_cons, List.head?_cons, Option.mem_def,
              Option.some.injEq] at hz
            rw [← hz]
            exact hlt
          · exact hih.1

/-- Every reported year contains a time stamp. -/
theorem yearsOf_sound :
    ∀ cs : List ℚ, ∀ y ∈ yearsOf cs, ∃ t ∈ cs, ⌊t⌋ = y := by
  intro cs
  induction cs with
  | nil => intro y hy; cases hy
  | cons t rest ih =>
    intro y hy
    cases hrest : yearsOf rest with
    | nil =>
      rw [yearsOf_cons_nil t hrest] at hy
      rcases List.mem_singleton.1 hy with rfl
      exact ⟨t, by simp, rfl⟩
    | cons y2 more =>
      rw [yearsOf_cons_cons t hrest] at hy
      by_cases hb : (⌊t⌋ == y2) = true
      · rw [if_pos hb] at hy
        obtain ⟨t2, ht2, he⟩ := ih y (hrest ▸ hy)
        exact ⟨t2, by simp [ht2], he⟩
      · rw [if_neg hb] at hy
        rcases List.mem_cons.1 hy with rfl | h2
        · exact ⟨t, by simp, rfl⟩
        · obtain ⟨t2, ht2, he⟩ := ih y (hrest ▸ h2)
          exact ⟨t2, by simp [ht2], he⟩

/-- The unfolding of resampleAnnualMean at an axis node, through exSeq. -/
theorem resample_arr (ax : String) (n : String) (c : List ℚ) (ch : List LArr) :
    (LArr.arr n c ch).resampleAnnualMean ax =
      (if n == ax then
        .ok (.arr n ((groupYears (c.zip ch)).map (fun g => ((g.1 : ℤ) : ℚ)))
                    ((groupYears (c.zip ch)).map (fun g => avgChildren g.2)))
      else
        (match exSeq (fun x => x.resampleAnnualMean ax) ch with
         | .ok ch2 => .ok (.arr n c ch2)
         | .error e => .error e)) := by
  have h0 : (LArr.arr n c ch).resampleAnnualMean ax =
      (if n == ax then
        .ok (.arr n ((groupYears (c.zip ch)).map (fun g => ((g.1 : ℤ) : ℚ)))
                    ((groupYears (c.zip ch)).map (fun g => avgChildren g.2)))
      else
        (match resampleList ax ch with
         | .ok ch2 => .ok (.arr n c ch2)
         | .error e => .error e)) := rfl
  rw [h0, resampleList_eq]

/-- groupYears commutes with mapping a function over the stored chunks. -/
theorem groupYears_map (g : LArr → LArr) :
    ∀ ps : List (ℚ × LArr),
      groupYears (ps.map (fun p => (p.1, g p.2))) =
        (groupYears ps).map (fun q => (q.1, q.2.map g)) := by
  intro ps
  induction ps with
  | nil => rfl
  | cons p rest ih =>
    obtain ⟨t, x⟩ := p
    cases hrest : groupYears rest with
    | nil =>
      have htail : groupYears (rest.map (fun p => (p.1, g p.2))) = [] := by
        rw [ih, hrest]
        rfl
      rw [List.map_cons, groupYears_cons_nil t x hrest]
      show groupYears ((t, g x) :: rest.map (fun p => (p.1, g p.2))) = _
      rw [groupYears_cons_nil t (g x) htail]
      rfl
    | cons q more =>
      obtain ⟨y, gg⟩ := q
      have htail : groupYears (rest.map (fun p => (p.1, g p.2))) =
          (y, gg.map g) :: more.map (fun q => (q.1, q.2.map g)) := by
        rw [ih, hrest]
        rfl
      rw [List.map_cons, groupYears_cons_cons t x hrest]
      show groupYears ((t, g x) :: rest.map (fun p => (p.1, g p.2))) = _
      rw [groupYears_cons_cons t (g x) htail]
      by_cases hb : (⌊t⌋ == y) = true
      · rw [if_pos hb, if_pos hb]
        rfl
      · rw [if_neg hb, if_neg hb]
        rfl

/-- resampleAnnualMean commutes with taking skeletons. -/
theorem resample_skeleton {ax : String} :
    ∀ {a b : LArr}, a.resampleAnnualMean ax = .ok b →
      a.skeleton.resampleAnnualMean ax = .ok b.skeleton := by
  have main : ∀ a b : LArr, a.resampleAnnualMean ax = .ok b →
      a.skeleton.resampleAnnualMean ax = .ok b.skeleton := by
    intro a
    induction a using LArr.myInd with
    | hs q => intro b h; cases h
    | ha n c ch ih =>
      intro b h
      rw [resample_arr] at h
      rw [skeleton_arr, resample_arr]
      by_cases hax : (n == ax) = true
      · rw [if_pos hax] at h
        rw [if_pos hax]
        cases h
        have hz : c.zip (ch.map LArr.skeleton) =
            (c.zip ch).map (fun p => (p.1, p.2.skeleton)) := by
          rw [List.zip_map_right]
          rfl
        rw [hz, groupYears_map, List.map_map, List.map_map, skeleton_arr,
          List.map_map]
        have hlab : List.map
            ((fun g : ℤ × List LArr => ((g.1 : ℤ) : ℚ)) ∘
              fun q => (q.1, q.2.map LArr.skeleton)) (groupYears (c.zip ch)) =
            List.map (fun g : ℤ × List LArr => ((g.1 : ℤ) : ℚ))
              (groupYears (c.zip ch)) :=
          List.map_congr_left (fun q _ => rfl)
        have hvals : List.map
            ((fun g : ℤ × List LArr => avgChildren g.2) ∘
              fun q => (q.1, q.2.map LArr.skeleton)) (groupYears (c.zip ch)) =
            List.map (LArr.skeleton ∘ fun g : ℤ × List LArr => avgChildren g.2)
              (groupYears (c.zip ch)) := by
          refine List.map_congr_left ?_
          intro q hq
          have hne := groupYears_nonempty _ q hq
          show avgChildren (q.2.map LArr.skeleton) = (avgChildren q.2).skeleton
          cases hq2 : q.2 with
          | nil => exact absurd hq2 hne
          | cons m ms => exact avg_skeleton m ms
        rw [hlab, hvals]
      · rw [if_neg hax] at h
        rw [if_neg hax]
        cases hseq : exSeq (fun x => x.resampleAnnualMean ax) ch with
        | error e => rw [hseq] at h; cases h
        | ok ch2 =>
          rw [hseq] at h
          cases h
          have h2 := (exSeq_ok_iff _).1 hseq
          have h3 : List.Forall₂ (fun x y => x.resampleAnnualMean ax = .ok y)
              (ch.map LArr.skeleton) (ch2.map LArr.skeleton) :=
            forall2_map_of h2 _ _ (fun x hx y hxy => ih x hx y hxy)
          rw [(exSeq_ok_iff _).2 h3, skeleton_arr]
  intro a b
  exact main a b

/-- resampleAnnualMean preserves the data-model invariant. -/
theorem resample_wf {ax : String} :
    ∀ {a b : LArr}, a.wfB = true → a.resampleAnnualMean ax = .ok b →
      b.wfB = true := by
  have main : ∀ a b : LArr, a.wfB = true → a.resampleAnnualMean ax = .ok b →
      b.wfB = true := by
    intro a
    induction a using LArr.myInd with
    | hs q => intro b _ h; cases h
    | ha n c ch ih =>
      intro b hw h
      obtain ⟨h1, h2, h3, h4⟩ := wfB_arr_parts hw
      rw [resample_arr] at h
      by_cases hax : (n == ax) = true
      · rw [if_pos hax] at h
        cases h
        have hmem : ∀ q ∈ groupYears (c.zip ch), ∀ z ∈ q.2, z ∈ ch := by
          intro q hq z hz
          obtain ⟨t, ht, -⟩ := groupYears_mem _ q hq z hz
          exact (List.of_mem_zip ht).2
        have hval : ∀ q ∈ groupYears (c.zip ch),
            (avgChildren q.2).wfB = true ∧
            ∃ z ∈ ch, (avgChildren q.2).skeleton = z.skeleton := by
          intro q hq
          have hne := groupYears_nonempty _ q hq
          cases hq2 : q.2 with
          | nil => exact absurd hq2 hne
          | cons m ms =>
            have hm : m ∈ ch := hmem q hq m (hq2 ▸ by simp)
            have hms : ∀ z ∈ ms, z ∈ ch := fun z hz =>
              hmem q hq z (hq2 ▸ by simp [hz])
            have ha := avg_wf m ms (h3 m hm) (fun z hz => h3 z (hms z hz))
              (fun z hz => h4 z (hms z hz) m hm)
            exact ⟨ha.1, m, hm, ha.2⟩
        have hchain : List.Chain' (· < ·)
            ((groupYears (c.zip ch)).map (fun g => g.1)) := by
          have hcz : (c.zip ch).map (fun p => p.1) = c :=
            List.map_fst_zip c ch (le_of_eq h1)
          exact (groupYears_chain (c.zip ch) (by rw [hcz]; exact h2)).1
        refine wfB_arr_intro (by simp) ?_ ?_ ?_
        · rw [chainLt_iff]
          have : ((groupYears (c.zip ch)).map (fun g => ((g.1 : ℤ) : ℚ))) =
              ((groupYears (c.zip ch)).map (fun g => g.1)).map
                (fun y : ℤ => (y : ℚ)) := by
            rw [List.map_map]
            rfl
          rw [this, List.chain'_map]
          exact hchain.imp (fun {a b} hab => by exact_mod_cast hab)
        · intro y hy
          obtain ⟨q, hq, rfl⟩ := List.mem_map.1 hy
          exact (hval q hq).1
        · intro y1 hy1 y2 hy2
          obtain ⟨q1, hq1, rfl⟩ := List.mem_map.1 hy1
          obtain ⟨q2, hq2, rfl⟩ := List.mem_map.1 hy2
          obtain ⟨z1, hz1, he1⟩ := (hval q1 hq1).2
          obtain ⟨z2, hz2, he2⟩ := (hval q2 hq2).2
          rw [he1, he2]
          exact h4 z1 hz1 z2 hz2
      · rw [if_neg hax] at h
        cases hseq : exSeq (fun x => x.resampleAnnualMean ax) ch with
        | error e => rw [hseq] at h; cases h
        | ok ch2 =>
          rw [hseq] at h
          cases h
          have hf := (exSeq_ok_iff _).1 hseq
          refine wfB_arr_intro (h1.trans hf.length_eq) h2 ?_ ?_
          · intro y hy
            obtain ⟨x, hx, hxy⟩ := forall2_mem_right hf y hy
            exact ih x hx y (h3 x hx) hxy
          · intro y1 hy1 y2 hy2
            obtain ⟨x1, hx1, hxy1⟩ := forall2_mem_right hf y1 hy1
            obtain ⟨x2, hx2, hxy2⟩ := forall2_mem_right hf y2 hy2
            have hs1 := resample_skeleton hxy1
            have hs2 := resample_skeleton hxy2
            rw [h4 x1 hx1 x2 hx2] at hs1
            exact Except.ok.inj (hs1.symm.trans hs2)
  intro a b
  exact main a b

/-- C3 (amended): under the invariant, annual resampling with mean succeeds
and produces one time point per calendar year represented on the time axis
(the distinct consecutive years), each labelled by a year that contains a
source sample and lies within that year's interval. -/
theorem resample_annual_spec {ax : String} :
    ∀ {a : LArr} {cs : List ℚ}, a.wfB = true → a.coordsOf ax = some cs →
      ∃ b, a.resampleAnnualMean ax = .ok b ∧
        b.coordsOf ax = some ((yearsOf cs).map (fun y : ℤ => (y : ℚ))) ∧
        b.axisLen ax = some (yearsOf cs).length ∧
        (∀ y ∈ yearsOf cs, ∃ t ∈ cs, ⌊t⌋ = y ∧ (y : ℚ) ≤ t ∧ t < (y : ℚ) + 1) := by
  have hbounds : ∀ cs : List ℚ, ∀ y ∈ yearsOf cs,
      ∃ t ∈ cs, ⌊t⌋ = y ∧ (y : ℚ) ≤ t ∧ t < (y : ℚ) + 1 := by
    intro cs y hy
    obtain ⟨t, ht, he⟩ := yearsOf_sound cs y hy
    refine ⟨t, ht, he, ?_, ?_⟩
    · rw [← he]
      exact_mod_cast Int.floor_le t
    · rw [← he]
      exact_mod_cast Int.lt_floor_add_one t
  have main : ∀ a : LArr, ∀ cs : List ℚ, a.wfB = true → a.coordsOf ax = some cs →
      ∃ b, a.resampleAnnualMean ax = .ok b ∧
        b.coordsOf ax = some ((yearsOf cs).map (fun y : ℤ => (y : ℚ))) ∧
        b.axisLen ax = some (yearsOf cs).length := by
    intro a
    induction a using LArr.myInd with
    | hs q => intro cs _ hc; cases hc
    | ha n c ch ih =>
      intro cs hw hc
      obtain ⟨h1, h2, h3, h4⟩ := wfB_arr_parts hw
      by_cases hax : n = ax
      · subst hax
        rw [coordsOf_arr_self] at hc
        cases hc
        have hlab : (groupYears (c.zip ch)).map (fun g => ((g.1 : ℤ) : ℚ)) =
            (yearsOf c).map (fun y : ℤ => (y : ℚ)) := by
          have hcz : (c.zip ch).map (fun p => p.1) = c :=
            List.map_fst_zip c ch (le_of_eq h1)
          have : (groupYears (c.zip ch)).map (fun g => ((g.1 : ℤ) : ℚ)) =
              ((groupYears (c.zip ch)).map (fun g => g.1)).map
                (fun y : ℤ => (y : ℚ)) := by
            rw [List.map_map]
            rfl
          rw [this, groupYears_labels, hcz]
        refine ⟨.arr n ((groupYears (c.zip ch)).map (fun g => ((g.1 : ℤ) : ℚ)))
          ((groupYears (c.zip ch)).map (fun g => avgChildren g.2)), ?_, ?_, ?_⟩
        · rw [resample_arr, if_pos (by simp)]
        · rw [coordsOf_arr_self, hlab]
        · rw [LArr.axisLen, coordsOf_arr_self, hlab]
          simp
      · rw [coordsOf_arr_ne hax] at hc
        cases ch with
        | nil => cases hc
        | cons x xs =>
          have hall : ∀ z ∈ x :: xs, z.coordsOf ax = some cs := by
            intro z hz
            rw [coordsOf_congr_skeleton ax (h4 z hz x (by simp))]
            exact hc
          obtain ⟨ch2, hch2⟩ := exSeq_isOk (fun z => z.resampleAnnualMean ax) (x :: xs)
            (fun z hz => by
              obtain ⟨b, hb, -⟩ := ih z hz cs (h3 z hz) (hall z hz)
              exact ⟨b, hb⟩)
          have hf := (exSeq_ok_iff _).1 hch2
          cases hf with
          | cons hxy hrest =>
            rename_i y ys
            obtain ⟨b, hb, hbc, hbl⟩ := ih x (by simp) cs (h3 x (by simp))
              (hall x (by simp))
            have hyb : y = b := Except.ok.inj (hxy.symm.trans hb)
            subst hyb
            refine ⟨.arr n c (y :: ys), ?_, ?_, ?_⟩
            · rw [resample_arr, if_neg (by simp [hax]), hch2]
            · rw [coordsOf_arr_ne hax]
              exact hbc
            · rw [LArr.axisLen, coordsOf_arr_ne hax]
              rw [LArr.axisLen] at hbl
              exact hbl
  intro a cs hw hc
  obtain ⟨b, hb, hbc, hbl⟩ := main a cs hw hc
  exact ⟨b, hb, hbc, hbl, hbounds cs⟩

/-- C3 witness: annual resampling of a concrete two-sample series spanning
two calendar years. -/
theorem resample_annual_spec_w :
    ∃ b, ex3.resampleAnnualMean "time" = .ok b ∧
      b.coordsOf "time" = some ((yearsOf [3/5, 7/5]).map (fun y : ℤ => (y : ℚ))) ∧
      b.axisLen "time" = some (yearsOf [3/5, 7/5]).length ∧
      (∀ y ∈ yearsOf [3/5, 7/5], ∃ t ∈ [(3 : ℚ)/5, 7/5], ⌊t⌋ = y ∧
        (y : ℚ) ≤ t ∧ t < (y : ℚ) + 1) :=
  @resample_annual_spec "time" ex3 [3/5, 7/5]
    (by with_unfolding_all rfl) rfl

/-- C3 counterexample: the claim that annual resampling yields exactly
ceil(number_of_years) time points fails: a series with samples at years
0.6 and 1.4 spans 0.8 years (ceil 1) yet resamples to 2 annual points. -/
theorem resample_ceil_counterexample :
    ex3.coordsOf "time" = some [3/5, 7/5] ∧
    ex3.resampleAnnualMean "time" = .ok (.arr "time" [0, 1] [.scalar 1, .scalar 2]) ∧
    (LArr.arr "time" [0, 1] [.scalar 1, .scalar 2]).axisLen "time" = some 2 ∧
    numberOfYears (3/5) (7/5) = 4/5 ∧
    ⌈numberOfYears (3/5) (7/5)⌉ = 1 ∧
    (2 : ℕ) ≠ 1 := by
  refine ⟨rfl, by with_unfolding_all rfl, rfl, ?_, by with_unfolding_all rfl, by decide⟩
  rw [numberOfYears]
  norm_num

/-- sel preserves the data-model invariant (it is a positional selection
after index resolution). -/
theorem sel_wf {ax : String} {v : ℚ} {ne : Bool} :
    ∀ {a b : LArr}, a.wfB = true → a.sel ax v ne = .ok b → b.wfB = true := by
  intro a b hw h
  unfold LArr.sel at h
  split at h
  · cases h
  · split at h
    · split at h
      · exact isel_wf hw h
      · cases h
    · split at h
      · exact isel_wf hw h
      · cases h

/-- C6 (amended): a Labeled Array produced by getvar with no transform from
a well-formed catalog entry satisfies the data-model invariant; an
unwindowed load exposes exactly the catalog's declared axes (time, then the
declared inner axes); and isel, sel, range selection, mean and annual
resampling each preserve the invariant. -/
theorem invariant_preservation :
    (∀ (cat : Catalog) (expt vname : String) (t0 t1 : Option ℚ)
       (ck : Option (List (String × Nat))) (e : CatalogEntry) (r : LabeledArray),
       lookupVar cat expt vname = some e → entryWF e = true →
       getvar cat expt vname t0 t1 ck none = .ok r → r.data.wfB = true) ∧
    (∀ (cat : Catalog) (expt vname : String)
       (ck : Option (List (String × Nat))) (e : CatalogEntry) (r : LabeledArray),
       lookupVar cat expt vname = some e → entryWF e = true →
       getvar cat expt vname none none ck none = .ok r →
       r.data.axesSpec =
         ("time", e.declaredTime) :: (mkSkeleton e.declaredInner).axesSpec) ∧
    (∀ (ax : String) (i : Nat) (a b : LArr),
       a.wfB = true → a.isel ax i = .ok b → b.wfB = true) ∧
    (∀ (ax : String) (v : ℚ) (ne : Bool) (a b : LArr),
       a.wfB = true → a.sel ax v ne = .ok b → b.wfB = true) ∧
    (∀ (ax : String) (lo hi : ℚ) (il ih2 : Bool) (a b : LArr),
       a.wfB = true → a.rangeSel ax lo hi il ih2 = .ok b → b.wfB = true) ∧
    (∀ (ax : String) (a b : LArr),
       a.wfB = true → a.meanA ax = .ok b → b.wfB = true) ∧
    (∀ (ax : String) (a b : LArr),
       a.wfB = true → a.resampleAnnualMean ax = .ok b → b.wfB = true) := by
  refine ⟨?_, ?_, ?_, ?_, ?_, ?_, ?_⟩
  · intro cat expt vname t0 t1 ck e r hl hwf hok
    obtain ⟨hchain, hmap, hall⟩ := entryWF_parts hwf
    rw [getvar_ok_iff] at hok
    obtain ⟨-, e2, hl2, -, -, hr⟩ := hok
    rw [hl] at hl2
    cases hl2
    subst hr
    simp only [applyTransform]
    have hwmem : ∀ s ∈ e.files.flatten.filter (fun s => inWindow t0 t1 s.1),
        s ∈ e.files.flatten := fun s hs => List.mem_of_mem_filter hs
    refine wfB_arr_intro (by rw [List.length_map, List.length_map]) ?_ ?_ ?_
    · rw [map_fst_filter, hmap]
      exact chainLt_filter _ hchain
    · intro y hy
      obtain ⟨s, hs, rfl⟩ := List.mem_map.1 hy
      exact (hall s (hwmem s hs)).1
    · intro y1 hy1 y2 hy2
      obtain ⟨s1, hs1, rfl⟩ := List.mem_map.1 hy1
      obtain ⟨s2, hs2, rfl⟩ := List.mem_map.1 hy2
      rw [(hall s1 (hwmem s1 hs1)).2, (hall s2 (hwmem s2 hs2)).2]
  · intro cat expt vname ck e r hl hwf hok
    obtain ⟨hchain, hmap, hall⟩ := entryWF_parts hwf
    rw [getvar_ok_iff] at hok
    obtain ⟨-, e2, hl2, -, hne, hr⟩ := hok
    rw [hl] at hl2
    cases hl2
    subst hr
    simp only [applyTransform]
    have hfil : e.files.flatten.filter (fun s => inWindow none none s.1) =
        e.files.flatten := List.filter_eq_self.mpr (fun a _ => rfl)
    rw [hfil] at hne ⊢
    cases hsamp : e.files.flatten with
    | nil => exact absurd hsamp hne
    | cons s rest =>
      simp only [List.map_cons]
      show ((("time" : String), (s.1 :: rest.map (fun s => s.1))) ::
        s.2.axesSpec) = _
      have hs2 : s.2.axesSpec = (mkSkeleton e.declaredInner).axesSpec := by
        have hskel := (hall s (by rw [hsamp]; simp)).2
        calc s.2.axesSpec = s.2.skeleton.axesSpec :=
              (axesSpec_mapValues _ _).symm
          _ = (mkSkeleton e.declaredInner).axesSpec := by rw [hskel]
      rw [hs2]
      have htimes : s.1 :: rest.map (fun s => s.1) = e.declaredTime := by
        rw [← hmap, hsamp]
        rfl
      rw [htimes]
  · intro ax i a b hw h
    exact isel_wf hw h
  · intro ax v ne a b hw h
    exact sel_wf hw h
  · intro ax lo hi il ih2 a b hw h
    exact rangeSel_wf hw h
  · intro ax a b hw h
    exact meanA_wf hw h
  · intro ax a b hw h
    exact resample_wf hw h

/-- C6 witness: the invariant holds for a concrete load and is preserved by
each presentation operation on concrete arrays. -/
theorem invariant_preservation_w :
    (LArr.arr "time" [0, 1, 2] [.scalar 10, .scalar 20, .scalar 30]).wfB = true ∧
    (LArr.arr "time" [0, 1, 2] [.scalar 10, .scalar 20, .scalar 30]).axesSpec =
      ("time", sampleEntry.declaredTime) ::
        (mkSkeleton sampleEntry.declaredInner).axesSpec ∧
    (LArr.arr "time" [0, 1] [.scalar 2, .scalar 4]).wfB = true ∧
    (LArr.arr "time" [0, 1] [.scalar 1, .scalar 3]).wfB = true ∧
    (LArr.arr "time" [0, 1] [.arr "x" [7] [.scalar 2],
      .arr "x" [7] [.scalar 4]]).wfB = true ∧
    (LArr.arr "x" [5, 7] [.scalar 2, .scalar 3]).wfB = true ∧
    (LArr.arr "time" [0, 1] [.arr "x" [5, 7] [.scalar 1, .scalar 2],
      .arr "x" [5, 7] [.scalar 3, .scalar 4]]).wfB = true :=
  ⟨invariant_preservation.1 sampleCat "e" "v" none none none sampleEntry
      ⟨.arr "time" [0, 1, 2] [.scalar 10, .scalar 20, .scalar 30], "K", "temp"⟩
      rfl rfl rfl,
   invariant_preservation.2.1 sampleCat "e" "v" none sampleEntry
      ⟨.arr "time" [0, 1, 2] [.scalar 10, .scalar 20, .scalar 30], "K", "temp"⟩
      rfl rfl rfl,
   invariant_preservation.2.2.1 "x" 1 ex2
      (.arr "time" [0, 1] [.scalar 2, .scalar 4]) (by decide) rfl,
   invariant_preservation.2.2.2.1 "x" 6 true ex2
      (.arr "time" [0, 1] [.scalar 1, .scalar 3]) (by decide)
      (by with_unfolding_all rfl),
   invariant_preservation.2.2.2.2.1 "x" 6 9 true true ex2
      (.arr "time" [0, 1] [.arr "x" [7] [.scalar 2], .arr "x" [7] [.scalar 4]])
      (by decide) rfl,
   invariant_preservation.2.2.2.2.2.1 "time" ex2
      (.arr "x" [5, 7] [.scalar 2, .scalar 3]) (by decide)
      (by with_unfolding_all rfl),
   invariant_preservation.2.2.2.2.2.2 "time" ex2
      (.arr "time" [0, 1] [.arr "x" [5, 7] [.scalar 1, .scalar 2],
        .arr "x" [5, 7] [.scalar 3, .scalar 4]]) (by decide)
      (by with_unfolding_all rfl)⟩

/-- C6 counterexample: the unamended claim fails because getvar applies an
arbitrary caller-supplied transform as the last step: a transform returning
a malformed array makes getvar return a Labeled Array violating the
invariant (axis length 1 against 0 children). -/
theorem invariant_counterexample :
    entryWF sampleEntry = true ∧
    getvar sampleCat "e" "v" none none none (some (fun _ => .arr "x" [0] [])) =
      .ok ⟨.arr "x" [0] [], "K", "temp"⟩ ∧
    (LArr.arr "x" [0] []).wfB = false :=
  ⟨rfl, rfl, rfl⟩

end Cookbook
